import Mathlib

/-!
Verification development for the magic-mount core of the KernelSU userspace
daemon (`src/userspace/ksud/src/magic_mount.rs`).

The Rust code is shallowly embedded as executable Lean functions:

* The live filesystem (including the module repository under `MODULE_DIR`
  and the scratch tmpfs mount point `TEMP_DIR`) is one finite tree `FSNode`.
  Symlink targets are modelled as absolute paths given as segment lists.
* Mount operations are given content semantics: a bind mount or move mount
  makes the target path show the source subtree's content; detaching the
  scratch tmpfs restores an empty directory at `TEMP_DIR`.
* Stateful code is explicit state passing over `St` (the filesystem plus a
  trace of attempted mount operations); fallible steps return `Res`.
* Recursive walks carry explicit fuel and fail with `Err.outOfFuel` when it
  runs out, so every definition is a computable total function; theorems
  about successful runs are unaffected by the fuel artifact.
-/

/-- A path, as a list of segments; all paths are absolute (rooted at `/`). -/
abbrev SegPath := List String

/-- Raw file kinds as reported by the OS for a directory entry. -/
inductive FKind where
  | file
  | dir
  | symlink
  | special
deriving DecidableEq, Repr

/-- `NodeFileType` from the source: the three kinds a virtual node can have. -/
inductive NodeFileType where
  | RegularFile
  | Directory
  | Symlink
deriving DecidableEq, Repr

/-- `NodeFileType::from_file_type`: `None` for device nodes, pipes, sockets. -/
def NodeFileType.from_file_type : FKind → Option NodeFileType
  | .file => some .RegularFile
  | .dir => some .Directory
  | .symlink => some .Symlink
  | .special => none

/-- A filesystem tree.  `file c` carries an abstract content identifier,
`dir` carries named entries in listing order, `symlink t` carries the literal
target (an absolute path), `special` stands for device nodes/pipes/sockets. -/
inductive FSNode where
  | file (content : Nat)
  | dir (entries : List (String × FSNode))
  | symlink (target : SegPath)
  | special

/-- The raw kind of a tree node (what `DirEntry::file_type` reports). -/
def kindOf : FSNode → FKind
  | .file _ => .file
  | .dir _ => .dir
  | .symlink _ => .symlink
  | .special => .special

/-- Look a name up in a directory entry list (first match). -/
def lookupEntry : List (String × FSNode) → String → Option FSNode
  | [], _ => none
  | (n, v) :: es, x => if n = x then some v else lookupEntry es x

/-- Replace the first entry called `x`, or append a new one. -/
def setEntry : List (String × FSNode) → String → FSNode → List (String × FSNode)
  | [], x, v => [(x, v)]
  | (n, w) :: es, x, v => if n = x then (x, v) :: es else (n, w) :: setEntry es x v

/-- Walk a path without following symlinks (the `lstat` view). -/
def getNF : FSNode → SegPath → Option FSNode
  | n, [] => some n
  | .dir es, x :: rest =>
    match lookupEntry es x with
    | some c => getNF c rest
    | none => none
  | _, _ :: _ => none

/-- Write `v` at a path: every proper ancestor must already exist as a
directory; the final segment is inserted or replaced.  `none` on failure. -/
def setNF : FSNode → SegPath → FSNode → Option FSNode
  | _, [], v => some v
  | .dir es, x :: rest, v =>
    match rest with
    | [] => some (.dir (setEntry es x v))
    | _ :: _ =>
      match lookupEntry es x with
      | some c =>
        match setNF c rest v with
        | some c' => some (.dir (setEntry es x c'))
        | none => none
      | none => none
  | _, _ :: _, _ => none

/-- Fuel-bounded symlink-following resolution, walking `p` from `cur`;
symlinks (also in the final position) restart from the root with the target
prepended, as the kernel resolves absolute link targets. -/
def resolveAux (root : FSNode) : Nat → FSNode → SegPath → Option FSNode
  | 0, _, _ => none
  | fuel + 1, cur, p =>
    match cur with
    | .symlink t => resolveAux root fuel root (t ++ p)
    | n =>
      match p with
      | [] => some n
      | x :: rest =>
        match n with
        | .dir es =>
          match lookupEntry es x with
          | some c => resolveAux root fuel c rest
          | none => none
        | _ => none

/-- Symlink-resolution fuel; ample for every tree in this development and a
model of the kernel's `ELOOP` bound. -/
def resolveFuel : Nat := 40

/-- Resolve a path with symlink following (the `stat` view). -/
def resolvePath (fs : FSNode) (p : SegPath) : Option FSNode :=
  resolveAux fs resolveFuel fs p

/-- Observable: kind of the entry at `p`, not following symlinks. -/
def kindAt (fs : FSNode) (p : SegPath) : Option FKind :=
  (getNF fs p).map kindOf

/-- Observable: content of the regular file at `p` (no follow). -/
def contentAt (fs : FSNode) (p : SegPath) : Option Nat :=
  match getNF fs p with
  | some (.file c) => some c
  | _ => none

/-- Observable: literal target of the symlink at `p`. -/
def targetAt (fs : FSNode) (p : SegPath) : Option SegPath :=
  match getNF fs p with
  | some (.symlink t) => some t
  | _ => none

/-- Observable: entry names of the directory at `p` (no follow). -/
def namesAt (fs : FSNode) (p : SegPath) : Option (List String) :=
  match getNF fs p with
  | some (.dir es) => some (es.map Prod.fst)
  | _ => none

/-- Errors of the embedded code: `unix` covers every I/O errno the model does
not distinguish; the `bail*` cases are the explicit `bail!` invariant checks
of `do_magic_mount`; `outOfFuel` is the fuel artifact of the embedding. -/
inductive Err where
  | outOfFuel
  | enoent
  | eexist
  | notDir
  | unix
  | bailRootFile
  | bailRootSymlink
  | bailRootDir
  | bailReplaceRoot
deriving DecidableEq, Repr

/-- Trace of attempted mount-table operations, plus a ghost `visit` marker
recorded each time `do_magic_mount` starts to process a virtual node. -/
inductive Op where
  | mountTmpfs
  | makePrivate
  | bindM (src dst : SegPath)
  | moveM (src dst : SegPath)
  | umountDetach
  | visit (p : SegPath)
deriving DecidableEq, Repr

/-- State threaded through the run: the filesystem and the operation trace. -/
structure St where
  fs : FSNode
  ops : List Op

/-- Result of a stateful step; errors keep the state reached so far (mounts
already made stay in place, as in the source). -/
inductive Res (α : Type) where
  | ok (a : α) (s : St)
  | err (e : Err) (s : St)

/-- The state carried by a result, in either case. -/
def stOf : Res α → St
  | .ok _ s => s
  | .err _ s => s

/-- The caller-visible outcome of a result. -/
def resultOf : Res α → Except Err α
  | .ok a _ => .ok a
  | .err e _ => .error e

/-- Projection used to state facts about boolean-returning steps. -/
def resBool (r : Res Bool) : Option Bool :=
  match r with
  | .ok b _ => some b
  | .err _ _ => none

/-- Append one operation to the trace. -/
def emit (s : St) (o : Op) : St :=
  { s with ops := s.ops ++ [o] }

/-- Replace the filesystem component. -/
def setFs (s : St) (f : FSNode) : St :=
  { s with fs := f }

/-- `Path::exists`, which follows symlinks (false for dangling links). -/
def existsF (s : St) (p : SegPath) : Bool :=
  (resolvePath s.fs p).isSome

/-- `metadata().file_type()`: the kind after following symlinks (hence never
`symlink`), `none` when resolution fails. -/
def kindF (s : St) (p : SegPath) : Option FKind :=
  (resolvePath s.fs p).map kindOf

/-- `fs::File::create`: truncating create; the parent must be an existing
directory and the path must not be an existing directory. -/
def createFileOp (p : SegPath) (s : St) : Res Unit :=
  match getNF s.fs p with
  | some (.dir _) => .err .unix s
  | _ =>
    match setNF s.fs p (.file 0) with
    | some f => .ok () (setFs s f)
    | none => .err .enoent s

/-- `create_dir`: fails if the path already exists. -/
def createDirOp (p : SegPath) (s : St) : Res Unit :=
  match getNF s.fs p with
  | some _ => .err .eexist s
  | none =>
    match setNF s.fs p (.dir []) with
    | some f => .ok () (setFs s f)
    | none => .err .enoent s

/-- Helper for `create_dir_all`: ensure each component exists as a directory. -/
def createDirAllAux : FSNode → SegPath → SegPath → Option FSNode
  | fs, _, [] => some fs
  | fs, pref, x :: rest =>
    match getNF fs (pref ++ [x]) with
    | some (.dir _) => createDirAllAux fs (pref ++ [x]) rest
    | some _ => none
    | none =>
      match setNF fs (pref ++ [x]) (.dir []) with
      | some f => createDirAllAux f (pref ++ [x]) rest
      | none => none

/-- `create_dir_all`. -/
def createDirAllOp (p : SegPath) (s : St) : Res Unit :=
  match createDirAllAux s.fs [] p with
  | some f => .ok () (setFs s f)
  | none => .err .unix s

/-- `std::os::unix::fs::symlink(target, link)`: creates `link` with the
literal target string `target`; fails if `link` exists. -/
def symlinkOp (target : SegPath) (link : SegPath) (s : St) : Res Unit :=
  match getNF s.fs link with
  | some _ => .err .eexist s
  | none =>
    match setNF s.fs link (.symlink target) with
    | some f => .ok () (setFs s f)
    | none => .err .enoent s

/-- Metadata/`chmod`/`chown`/`lgetfilecon`/`lsetfilecon` round trip on an
entry that must exist without following symlinks; the model does not track
modes, owners or labels, only the possible failure. -/
def readMetaNF (p : SegPath) (s : St) : Res Unit :=
  match getNF s.fs p with
  | some _ => .ok () s
  | none => .err .enoent s

/-- Metadata round trip on a path that must resolve (following symlinks). -/
def readMetaF (p : SegPath) (s : St) : Res Unit :=
  match resolvePath s.fs p with
  | some _ => .ok () s
  | none => .err .enoent s

/-- `read_dir`: listing names of the directory a path resolves to. -/
def readDirNamesF (p : SegPath) (s : St) : Res (List String) :=
  match resolvePath s.fs p with
  | some (.dir es) => .ok (es.map Prod.fst) s
  | some _ => .err .notDir s
  | none => .err .enoent s

/-- Whether a node is a directory. -/
def isDirNode : FSNode → Bool
  | .dir _ => true
  | _ => false

/-- `bind_mount(src, dst)` with content semantics: the operation is recorded
as attempted, the source must resolve, the target must already exist with a
matching directory-ness, and afterwards `dst` shows `src`'s content. -/
def bindMountOp (src dst : SegPath) (s : St) : Res Unit :=
  let s := emit s (.bindM src dst)
  match resolvePath s.fs src with
  | none => .err .enoent s
  | some sn =>
    match getNF s.fs dst with
    | none => .err .enoent s
    | some dn =>
      if isDirNode sn = isDirNode dn then
        match setNF s.fs dst sn with
        | some f => .ok () (setFs s f)
        | none => .err .enoent s
      else .err .notDir s

/-- `move_mount(src, dst)`: like a bind mount of `src`'s content onto `dst`
(recorded as attempted); the source mount stays untouched in the scratch
tree, which is torn down afterwards and never consulted again. -/
def moveMountOp (src dst : SegPath) (s : St) : Res Unit :=
  let s := emit s (.moveM src dst)
  match getNF s.fs src with
  | none => .err .enoent s
  | some sn =>
    match getNF s.fs dst with
    | none => .err .enoent s
    | some dn =>
      if isDirNode sn = isDirNode dn then
        match setNF s.fs dst sn with
        | some f => .ok () (setFs s f)
        | none => .err .enoent s
      else .err .notDir s

/-- Modelled from the spec: `TEMP_DIR` from `defs.rs` (not under `src/`),
"a scratch tmpfs workspace" at a fixed mount point. -/
def TEMP_DIR : SegPath := ["debug_ramdisk"]

/-- Modelled from the spec: `MODULE_DIR` from `defs.rs` (not under `src/`),
"one subdirectory per module under a known root". -/
def MODULE_DIR : SegPath := ["data", "adb", "modules"]

/-- Modelled from the spec: `SKIP_MOUNT_FILE_NAME` from `defs.rs` (not under
`src/`), the per-module skip-mount marker file name. -/
def SKIP_MOUNT_FILE_NAME : String := "skip_mount"

/-- `mount(KSU_MOUNT_SOURCE, tmp_dir, "tmpfs", ...)`: the mount point must
exist as a directory; afterwards it shows a fresh empty tmpfs. -/
def mountTmpfsOp (s : St) : Res Unit :=
  let s := emit s .mountTmpfs
  match getNF s.fs TEMP_DIR with
  | some (.dir _) =>
    match setNF s.fs TEMP_DIR (.dir []) with
    | some f => .ok () (setFs s f)
    | none => .err .enoent s
  | some _ => .err .notDir s
  | none => .err .enoent s

/-- `mount_change(tmp_dir, PRIVATE)`: propagation change, no content effect. -/
def makePrivateOp (s : St) : Res Unit :=
  let s := emit s .makePrivate
  match getNF s.fs TEMP_DIR with
  | some _ => .ok () s
  | none => .err .enoent s

/-- `unmount(tmp_dir, DETACH)`: recorded as attempted; on success the mount
point reverts to the (empty) underlying directory. -/
def unmountDetachOp (s : St) : Res Unit :=
  let s := emit s .umountDetach
  match getNF s.fs TEMP_DIR with
  | some _ =>
    match setNF s.fs TEMP_DIR (.dir []) with
    | some f => .ok () (setFs s f)
    | none => .err .enoent s
  | none => .err .enoent s

/-- The virtual tree entity `Node` from the source; `children` is the
name-keyed map, kept in insertion order. -/
inductive Node where
  | mk (name : String) (file_type : NodeFileType) (children : List Node)
       (module_path : Option SegPath) (replace : Bool)

/-- The node's path segment. -/
def Node.name : Node → String
  | .mk n _ _ _ _ => n

/-- The node's declared kind. -/
def Node.file_type : Node → NodeFileType
  | .mk _ t _ _ _ => t

/-- The node's children, in insertion order. -/
def Node.children : Node → List Node
  | .mk _ _ cs _ _ => cs

/-- The node's owning module path, if any. -/
def Node.module_path : Node → Option SegPath
  | .mk _ _ _ m _ => m

/-- The node's replace flag. -/
def Node.replace : Node → Bool
  | .mk _ _ _ _ r => r

/-- `Node::new_root`. -/
def Node.newRoot (name : String) : Node :=
  .mk name .Directory [] none false

/-- Set the replace flag (the `.replace` marker case). -/
def Node.withReplace (n : Node) (r : Bool) : Node :=
  .mk n.name n.file_type n.children n.module_path r

/-- Replace the children list. -/
def Node.withChildren (n : Node) (cs : List Node) : Node :=
  .mk n.name n.file_type cs n.module_path n.replace

/-- `HashMap` lookup by name (first match). -/
def findChild : List Node → String → Option Node
  | [], _ => none
  | c :: cs, n => if c.name = n then some c else findChild cs n

/-- Replace the first child called `n` by `c'`. -/
def replaceChild : List Node → String → Node → List Node
  | [], _, _ => []
  | c :: cs, n, c' => if c.name = n then c' :: cs else c :: replaceChild cs n c'

/-- `HashMap::remove` by name: the removed child (if any) and the rest. -/
def extractChild : List Node → String → Option Node × List Node
  | [], _ => (none, [])
  | c :: cs, n =>
    if c.name = n then (some c, cs)
    else
      match extractChild cs n with
      | (r, cs') => (r, c :: cs')

/-- `path.join(name)` where the anonymous root's name is the empty string. -/
def pjoin (p : SegPath) (n : String) : SegPath :=
  if n = "" then p else p ++ [n]

/-- `clone_symlink(src, dst)` from the source: creates at `dst` a symlink via
`symlink(src, dst)` — whose literal target is therefore the path `src`
itself — then copies `src`'s security label onto it. -/
def clone_symlinkOp (src dst : SegPath) (s : St) : Res Unit :=
  match symlinkOp src dst s with
  | .err e s => .err e s
  | .ok _ s =>
    match readMetaNF src s with
    | .err e s => .err e s
    | .ok _ s => readMetaNF dst s

mutual

/-- `mount_mirror(path, work_dir_path, entry)`: replicate the live entry
`name` of directory `path` into the shadow at `work`. -/
def mount_mirror : Nat → SegPath → SegPath → String → St → Res Unit
  | 0, _, _, _, s => .err .outOfFuel s
  | fuel + 1, path, work, name, s =>
    let p := path ++ [name]
    let w := work ++ [name]
    match kindAt s.fs p with
    | none => .err .enoent s
    | some .file =>
      match createFileOp w s with
      | .err e s => .err e s
      | .ok _ s => bindMountOp p w s
    | some .dir =>
      match createDirOp w s with
      | .err e s => .err e s
      | .ok _ s =>
        match readMetaNF p s with
        | .err e s => .err e s
        | .ok _ s =>
          match readDirNamesF p s with
          | .err e s => .err e s
          | .ok names s => mirrorChildren fuel p w names s
    | some .symlink => clone_symlinkOp p w s
    | some .special => .ok () s

/-- The `for entry in read_dir(&path)` loop inside `mount_mirror`'s
directory case. -/
def mirrorChildren : Nat → SegPath → SegPath → List String → St → Res Unit
  | _, _, _, [], s => .ok () s
  | 0, _, _, _ :: _, s => .err .outOfFuel s
  | fuel + 1, p, w, n :: ns, s =>
    match mount_mirror fuel p w n s with
    | .err e s => .err e s
    | .ok _ s => mirrorChildren fuel p w ns s

end

/-- One step of the shadow decision (`do_magic_mount`, Directory case): does
virtual child `node` of the directory at `path` force a tmpfs shadow? -/
def childNeeds (path : SegPath) (node : Node) (s : St) : Res Bool :=
  let real := path ++ [node.name]
  if node.file_type = .Symlink then .ok true s
  else if existsF s real = false then .ok true s
  else
    match kindF s real with
    | none => .err .enoent s
    | some k =>
      let ft := (NodeFileType.from_file_type k).getD .RegularFile
      .ok (decide (ft ≠ node.file_type) || decide (ft = .Symlink)) s

/-- The shadow-decision loop with early exit at the first qualifying child. -/
def needLoop : List Node → SegPath → St → Res Bool
  | [], _, s => .ok false s
  | n :: ns, path, s =>
    match childNeeds path n s with
    | .err e s => .err e s
    | .ok true s => .ok true s
    | .ok false s => needLoop ns path s

/-- The tmpfs-skeleton step: `create_dir_all` plus the metadata copy from the
live path or, when it does not exist, from the owning module's directory. -/
def skeletonOp (path work : SegPath) (current : Node) (s : St) : Res Unit :=
  match createDirAllOp work s with
  | .err e s => .err e s
  | .ok _ s =>
    if existsF s path then readMetaF path s
    else
      match current.module_path with
      | some mp => readMetaF mp s
      | none => .err .bailRootDir s

mutual

/-- `do_magic_mount(path, work_dir_path, current, has_tmpfs)`. -/
def do_magic_mount : Nat → SegPath → SegPath → Node → Bool → St → Res Unit
  | 0, _, _, _, _, s => .err .outOfFuel s
  | fuel + 1, path0, work0, current, has_tmpfs, s =>
    let path := pjoin path0 current.name
    let work := pjoin work0 current.name
    let s := emit s (.visit path)
    match current.file_type with
    | .RegularFile =>
      match (if has_tmpfs then createFileOp work s else .ok () s : Res Unit) with
      | .err e s => .err e s
      | .ok _ s =>
        match current.module_path with
        | some mp => bindMountOp mp work s
        | none => .err .bailRootFile s
    | .Symlink =>
      match current.module_path with
      | some mp => clone_symlinkOp mp work s
      | none => .err .bailRootSymlink s
    | .Directory =>
      match (if has_tmpfs then .ok false s else needLoop current.children path s : Res Bool) with
      | .err e s => .err e s
      | .ok create_tmpfs s =>
        let htf := has_tmpfs || create_tmpfs
        match (if htf then skeletonOp path work current s else .ok () s : Res Unit) with
        | .err e s => .err e s
        | .ok _ s =>
          match (if create_tmpfs then bindMountOp work work s else .ok () s : Res Unit) with
          | .err e s => .err e s
          | .ok _ s =>
            match
              (if existsF s path && !current.replace then
                match readDirNamesF path s with
                | .err e s => .err e s
                | .ok names s => liveLoop fuel names current.children path work htf s
              else .ok current.children s : Res (List Node)) with
            | .err e s => .err e s
            | .ok remaining s =>
              if current.replace && current.module_path.isNone then .err .bailReplaceRoot s
              else
                match drainLoop fuel remaining path work htf s with
                | .err e s => .err e s
                | .ok _ s =>
                  if create_tmpfs then moveMountOp work path s else .ok () s

/-- The `for entry in path.read_dir()` loop of the Directory case: each live
entry matching a virtual child removes and processes that child; unmatched
entries are mirrored when inside an active shadow.  Returns the children not
yet processed. -/
def liveLoop : Nat → List String → List Node → SegPath → SegPath → Bool → St →
    Res (List Node)
  | _, [], cs, _, _, _, s => .ok cs s
  | 0, _ :: _, _, _, _, _, s => .err .outOfFuel s
  | fuel + 1, n :: ns, cs, path, work, htf, s =>
    match extractChild cs n with
    | (some node, cs') =>
      match do_magic_mount fuel path work node htf s with
      | .err e s => .err e s
      | .ok _ s => liveLoop fuel ns cs' path work htf s
    | (none, _) =>
      if htf then
        match mount_mirror fuel path work n s with
        | .err e s => .err e s
        | .ok _ s => liveLoop fuel ns cs path work htf s
      else liveLoop fuel ns cs path work htf s

/-- The `for node in current.children.into_values()` drain loop. -/
def drainLoop : Nat → List Node → SegPath → SegPath → Bool → St → Res Unit
  | _, [], _, _, _, s => .ok () s
  | 0, _ :: _, _, _, _, s => .err .outOfFuel s
  | fuel + 1, c :: cs, path, work, htf, s =>
    match do_magic_mount fuel path work c htf s with
    | .err e s => .err e s
    | .ok _ s => drainLoop fuel cs path work htf s

end

/-- `read_dir` as used by the tree builder (which runs before any mount and
only reads): the listed entries of the directory `p` resolves to. -/
def readDirEx (fs : FSNode) (p : SegPath) : Except Err (List (String × FSNode)) :=
  match resolvePath fs p with
  | some (.dir es) => .ok es
  | some _ => .error .notDir
  | none => .error .enoent

mutual

/-- `Node::collect_module_files(&mut self, module_dir)`: merge one module
directory into `self`, returning the `has_file` flag and the updated node. -/
def Node.collectModuleFiles : Nat → FSNode → SegPath → Node → Except Err (Bool × Node)
  | 0, _, _, _ => .error .outOfFuel
  | fuel + 1, fs, dir, self =>
    match readDirEx fs dir with
    | .error e => .error e
    | .ok entries => collectEntries fuel fs dir entries false self

/-- The `for entry in dir.read_dir()?.flatten()` loop of
`Node::collect_module_files`, threading `has_file` and the node. -/
def collectEntries : Nat → FSNode → SegPath → List (String × FSNode) → Bool → Node →
    Except Err (Bool × Node)
  | _, _, _, [], hf, self => .ok (hf, self)
  | 0, _, _, _ :: _, _, _ => .error .outOfFuel
  | fuel + 1, fs, dir, (name, sub) :: rest, hf, self =>
    if name = ".replace" then
      collectEntries fuel fs dir rest true (self.withReplace true)
    else
      match findChild self.children name with
      | some node =>
        if node.file_type = .Directory then
          match Node.collectModuleFiles fuel fs (dir ++ [node.name]) node with
          | .error e => .error e
          | .ok (hf2, node') =>
            collectEntries fuel fs dir rest (hf || hf2)
              (self.withChildren (replaceChild self.children name node'))
        else collectEntries fuel fs dir rest (hf || true) self
      | none =>
        match NodeFileType.from_file_type (kindOf sub) with
        | none => collectEntries fuel fs dir rest hf self
        | some nft =>
          let newNode : Node := .mk name nft [] (some (dir ++ [name])) false
          if nft = .Directory then
            match Node.collectModuleFiles fuel fs (dir ++ [name]) newNode with
            | .error e => .error e
            | .ok (hf2, node') =>
              collectEntries fuel fs dir rest (hf || hf2)
                (self.withChildren (self.children ++ [node']))
          else
            collectEntries fuel fs dir rest (hf || true)
              (self.withChildren (self.children ++ [newNode]))

end

/-- Does a path resolve to a directory (`Path::is_dir`, follows symlinks)? -/
def isDirF (fs : FSNode) (p : SegPath) : Bool :=
  match resolvePath fs p with
  | some (.dir _) => true
  | _ => false

/-- Does a path resolve at all (`Path::exists` on a plain tree)? -/
def existsPure (fs : FSNode) (p : SegPath) : Bool :=
  (resolvePath fs p).isSome

/-- Is the entry at `p` itself a symlink (`Path::is_symlink`, no follow)? -/
def isSymlinkNF (fs : FSNode) (p : SegPath) : Bool :=
  match getNF fs p with
  | some (.symlink _) => true
  | _ => false

/-- The per-module loop of the free function `collect_module_files`: skip
non-directories, disabled or skip-mount modules and modules without a
`system` subdirectory; merge the rest into the synthetic `system` node. -/
def perModule : Nat → FSNode → List (String × FSNode) → Bool → Node →
    Except Err (Bool × Node)
  | _, _, [], hf, system => .ok (hf, system)
  | fuel, fs, (name, sub) :: rest, hf, system =>
    if kindOf sub ≠ .dir then perModule fuel fs rest hf system
    else if existsPure fs (MODULE_DIR ++ [name, "disable"]) ||
        existsPure fs (MODULE_DIR ++ [name, SKIP_MOUNT_FILE_NAME]) then
      perModule fuel fs rest hf system
    else if !isDirF fs (MODULE_DIR ++ [name, "system"]) then
      perModule fuel fs rest hf system
    else
      match Node.collectModuleFiles fuel fs (MODULE_DIR ++ [name, "system"]) system with
      | .error e => .error e
      | .ok (hf2, system') => perModule fuel fs rest (hf || hf2) system'

/-- The partition-reparenting loop: move `vendor`/`system_ext`/`product`/
`odm` children from the synthetic `system` node to the root when the live
partition is a real top-level directory and `/system/<name>` is a symlink. -/
def reparentGo : List String → FSNode → Node → Node → Node × Node
  | [], _, root, system => (root, system)
  | part :: parts, fs, root, system =>
    if isDirF fs [part] && isSymlinkNF fs ["system", part] then
      match extractChild system.children part with
      | (some node, cs') =>
        reparentGo parts fs (root.withChildren (root.children ++ [node]))
          (system.withChildren cs')
      | (none, _) => reparentGo parts fs root system
    else reparentGo parts fs root system

/-- The free function `collect_module_files()`: build the whole virtual tree
from the module repository, `none` when no module contributed anything. -/
def collect_module_files (fuel : Nat) (fs : FSNode) : Except Err (Option Node) :=
  match readDirEx fs MODULE_DIR with
  | .error e => .error e
  | .ok entries =>
    match perModule fuel fs entries false (Node.newRoot "system") with
    | .error e => .error e
    | .ok (hf, system) =>
      if hf then
        match reparentGo ["vendor", "system_ext", "product", "odm"] fs
            (Node.newRoot "") system with
        | (root, system') =>
          .ok (some (root.withChildren (root.children ++ [system'])))
      else .ok none

/-- The tmpfs mount plus propagation change at the start of `magic_mount`. -/
def mountPrep (s : St) : Res Unit :=
  match mountTmpfsOp s with
  | .err e s => .err e s
  | .ok _ s => makePrivateOp s

/-- The unconditional teardown: a detach failure is logged and discarded. -/
def runDetach (s : St) : St :=
  match unmountDetachOp s with
  | .ok _ s => s
  | .err _ s => s

/-- `magic_mount()`: build the tree; if empty, succeed with no operations;
otherwise mount the private scratch tmpfs, run the orchestrator rooted at
`/`, always detach the scratch workspace, and return the orchestrator's
result. -/
def magicMount (fuel : Nat) (fs : FSNode) : Except Err Unit × St :=
  match collect_module_files fuel fs with
  | .error e => (.error e, ⟨fs, []⟩)
  | .ok none => (.ok (), ⟨fs, []⟩)
  | .ok (some root) =>
    match mountPrep ⟨fs, []⟩ with
    | .err e s => (.error e, s)
    | .ok _ s =>
      let r := do_magic_mount fuel [] TEMP_DIR root false s
      (resultOf r, runDetach (stOf r))

/-- Navigate the virtual tree along a relative path. -/
def Node.findByPath : Node → List String → Option Node
  | n, [] => some n
  | n, x :: rest =>
    match findChild n.children x with
    | some c => Node.findByPath c rest
    | none => none

/-- Observable on a builder result: the `module_path` of the node at a
relative path of the built tree, when the build produced one. -/
def collectedNodeMP (r : Except Err (Option Node)) (p : List String) :
    Option (Option SegPath) :=
  match r with
  | .ok (some root) => (root.findByPath p).map Node.module_path
  | _ => none

/-- A live filesystem with the given module repository under `MODULE_DIR`,
the given `/system` content, and an empty directory at `TEMP_DIR`. -/
def mkFs (mods : List (String × FSNode)) (system : List (String × FSNode)) : FSNode :=
  .dir [("data", .dir [("adb", .dir [("modules", .dir mods)])]),
        ("system", .dir system),
        ("debug_ramdisk", .dir [])]

/-- Fixture: one module marking `system/app` with `.replace` and contributing
only `app/C/newfile`, on a device whose `/system/app` already holds `C/oldc`
and `OldApp/x`. -/
def fs1 : FSNode := mkFs
  [("m1", .dir [("system", .dir [("app",
      .dir [(".replace", .file 0), ("C", .dir [("newfile", .file 7)])])])])]
  [("app", .dir [("C", .dir [("oldc", .file 1)]), ("OldApp", .dir [("x", .file 2)])])]

/-- Fixture: one module contributing the symlink `system/bin/ln1` with target
`/system/etc/tgt`, on a device whose `/system/bin` holds a file `keep` and a
live symlink `lk` (also targeting `/system/etc/tgt`). -/
def fs2 : FSNode := mkFs
  [("m1", .dir [("system", .dir [("bin",
      .dir [("ln1", .symlink ["system", "etc", "tgt"])])])])]
  [("bin", .dir [("keep", .file 4), ("lk", .symlink ["system", "etc", "tgt"])]),
   ("etc", .dir [("tgt", .file 6)])]

/-- Fixture: two enabled modules both contributing the regular file
`system/a`, with distinct contents. -/
def fs3 : FSNode := mkFs
  [("m1", .dir [("system", .dir [("a", .file 1)])]),
   ("m2", .dir [("system", .dir [("a", .file 2)])])]
  []

/-- Fixture: a module contributes the regular file `system/bin/su`, while the
live `/system/bin/su` is a symlink resolving to the regular file
`/system/xbin/su0`. -/
def fs4 : FSNode := mkFs
  [("m1", .dir [("system", .dir [("bin", .dir [("su", .file 9)])])])]
  [("bin", .dir [("su", .symlink ["system", "xbin", "su0"])]),
   ("xbin", .dir [("su0", .file 3)])]

/-- The children of the `system/bin` node of the tree built from `fs4`. -/
def c4binChildren : List Node :=
  match collect_module_files 64 fs4 with
  | .ok (some root) =>
    match root.findByPath ["system", "bin"] with
    | some n => n.children
    | none => []
  | _ => []

/-- Fixture: a module adds the new file `system/bin/b` next to the
pre-existing live file `/system/bin/a`. -/
def fs5 : FSNode := mkFs
  [("m1", .dir [("system", .dir [("bin", .dir [("b", .file 5)])])])]
  [("bin", .dir [("a", .file 1)])]

/-- Fixture: one enabled module whose `system` directory is empty. -/
def fs7 : FSNode := mkFs [("m1", .dir [("system", .dir [])])] []

/-- Fixture: module `m0` contributes the directory `system/x`, and the later
module `m1` has `system/x` as a regular file, so merging `m1` tries to read
a directory listing of a regular file. -/
def fs8 : FSNode := mkFs
  [("m0", .dir [("system", .dir [("x", .dir [("q", .file 1)])])]),
   ("m1", .dir [("system", .dir [("x", .file 2)])])]
  []

/-- Fixture: the live `/system/bin` holds a device node `dev0` and a file
`a`; a module adds the new file `system/bin/b`, forcing the directory into
shadow mode. -/
def fs10 : FSNode := mkFs
  [("m1", .dir [("system", .dir [("bin", .dir [("b", .file 5)])])])]
  [("bin", .dir [("dev0", .special), ("a", .file 1)])]

/-- The ghost visit markers contained in a trace fragment. -/
def visitsIn (l : List Op) : List SegPath :=
  l.filterMap fun o =>
    match o with
    | .visit p => some p
    | _ => none

/-- `p` is a prefix of `q` (as segment lists). -/
def PrefixSeg (p q : SegPath) : Prop :=
  ∃ r, p ++ r = q

/-- Well-formedness of a virtual node, as guaranteed by the builder: child
names are pairwise distinct and nonempty, recursively. -/
inductive WFN : Node → Prop where
  | intro (n : Node) (hnn : (n.children.map Node.name).Nodup)
      (hne : ∀ c, c ∈ n.children → c.name ≠ "")
      (hc : ∀ c, c ∈ n.children → WFN c) : WFN n

/-- `nu` subsumes `ol`: same name, kind and owning module, and every child
of `ol` is subsumed by some child of `nu` — i.e. `nu` is `ol` with possibly
more children, more replace flags, and recursively merged directories. -/
def Subsumes (nu ol : Node) : Prop :=
  nu.name = ol.name ∧ nu.file_type = ol.file_type ∧ nu.module_path = ol.module_path ∧
  ∀ c, (h : c ∈ ol.children) → ∃ c', c' ∈ nu.children ∧ Subsumes c' c
termination_by sizeOf ol
decreasing_by
  rcases ol with ⟨n, t, cs, m, r⟩
  simp only [Node.children] at h
  have h1 := List.sizeOf_lt_of_mem h
  simp only [Node.mk.sizeOf_spec]
  omega

/-- Claim C1.  The claim is violated by the code: on `fs1` the module marks
`system/app` with `.replace` and contributes only the subdirectory `C`, all
module children match live entries so no tmpfs shadow is created, the run
succeeds, and afterwards the pre-existing `/system/app/OldApp` is still
visible — `replace` hides nothing when the directory is never shadowed.  The
module's own contribution (`C/newfile`) and the pre-existing `C/oldc` are
both visible as well. -/
theorem c1_replace_without_shadow_keeps_preexisting :
    (magicMount 64 fs1).1 = .ok () ∧
    namesAt fs1 (MODULE_DIR ++ ["m1", "system", "app"]) = some [".replace", "C"] ∧
    namesAt (magicMount 64 fs1).2.fs ["system", "app"] = some ["C", "OldApp"] ∧
    kindAt (magicMount 64 fs1).2.fs ["system", "app", "OldApp"] = some .dir ∧
    contentAt (magicMount 64 fs1).2.fs ["system", "app", "C", "newfile"] = some 7 ∧
    contentAt (magicMount 64 fs1).2.fs ["system", "app", "C", "oldc"] = some 1 :=
  ⟨rfl, rfl, rfl, rfl, rfl, rfl⟩

/-- Claim C2.  The claim is violated by the code: `clone_symlink(src, dst)`
calls `symlink(src, dst)` without reading `src`'s link target, so the
realized link's target string is the path of the source symlink, not the
source's own target.  On `fs2` the module symlink `ln1` (target
`/system/etc/tgt`) is realized at `/system/bin/ln1` with target
`/data/adb/modules/m1/system/bin/ln1`, and the mirrored live symlink `lk`
is realized pointing at its own path, a self-loop. -/
theorem c2_clone_symlink_target_is_source_path :
    (magicMount 64 fs2).1 = .ok () ∧
    targetAt fs2 (MODULE_DIR ++ ["m1", "system", "bin", "ln1"])
      = some ["system", "etc", "tgt"] ∧
    targetAt (magicMount 64 fs2).2.fs ["system", "bin", "ln1"]
      = some (MODULE_DIR ++ ["m1", "system", "bin", "ln1"]) ∧
    MODULE_DIR ++ ["m1", "system", "bin", "ln1"] ≠ ["system", "etc", "tgt"] ∧
    targetAt fs2 ["system", "bin", "lk"] = some ["system", "etc", "tgt"] ∧
    targetAt (magicMount 64 fs2).2.fs ["system", "bin", "lk"]
      = some ["system", "bin", "lk"] :=
  ⟨rfl, rfl, rfl, by decide, rfl, rfl⟩

/-- Claim C4.  The claim is violated by the code: on `fs4` the live entry
`/system/bin/su` is a symlink, but the shadow decision resolves it with the
following `metadata()`, sees a regular file matching the virtual child's
type, and decides that no shadow is needed (`needLoop` returns `false` on
the built children `c4binChildren`); the run then fails with `ENOENT`
instead of shadowing `/system/bin`. -/
theorem c4_live_symlink_does_not_force_shadow :
    kindAt fs4 ["system", "bin", "su"] = some .symlink ∧
    resBool (needLoop c4binChildren ["system", "bin"] ⟨fs4, []⟩) = some false ∧
    c4binChildren.map Node.file_type = [.RegularFile] ∧
    (magicMount 64 fs4).1 = .error .enoent :=
  ⟨rfl, rfl, rfl, rfl⟩

/-- Claim C5.  The claim is violated by the code: a `RegularFile` processed
with `has_tmpfs = false` is bind-mounted onto the scratch path, not the live
path.  On `fs5` the first invocation succeeds (the new file forces a
shadow), but the second invocation — where the live file now exists with
matching type, so no shadow is made — attempts the bind mount at
`TEMP_DIR/system/bin/b`, whose parent does not exist, and fails with
`ENOENT`: applying the same module set twice is not idempotent. -/
theorem c5_second_invocation_fails :
    (magicMount 64 fs5).1 = .ok () ∧
    contentAt (magicMount 64 fs5).2.fs ["system", "bin", "b"] = some 5 ∧
    contentAt (magicMount 64 fs5).2.fs ["system", "bin", "a"] = some 1 ∧
    (magicMount 64 (magicMount 64 fs5).2.fs).1 = .error .enoent ∧
    Op.bindM (MODULE_DIR ++ ["m1", "system", "bin", "b"]) (TEMP_DIR ++ ["system", "bin", "b"])
      ∈ (magicMount 64 (magicMount 64 fs5).2.fs).2.ops :=
  ⟨rfl, rfl, rfl, rfl, by decide⟩

/-- The trace grows from `s` to `s'` by an appended fragment whose ghost
visit markers are exactly `v`. -/
def VisOf (s s' : St) (v : List SegPath) : Prop :=
  ∃ l, s'.ops = s.ops ++ l ∧ visitsIn l = v

/-- The teardown appends exactly one detach attempt to the trace, whether
the detach itself succeeds or fails. -/
theorem runDetach_ops (st : St) : (runDetach st).ops = st.ops ++ [Op.umountDetach] := by
  unfold runDetach unmountDetachOp emit setFs
  cases h : getNF st.fs TEMP_DIR with
  | none => simp [h]
  | some n =>
    simp only [h]
    cases hs : setNF st.fs TEMP_DIR (.dir []) <;> simp [hs]

/-- Claim C6.  When the builder produced a tree and the scratch tmpfs was
mounted, `magic_mount` returns exactly the orchestrator's result paired with
the state after the teardown, and the teardown's detach attempt is always in
the trace — a detach failure is discarded and never masks the result. -/
theorem c6_detach_always_attempted_result_passthrough (fuel : Nat) (fs : FSNode)
    (root : Node) (s2 : St)
    (h1 : collect_module_files fuel fs = .ok (some root))
    (h2 : mountPrep ⟨fs, []⟩ = .ok () s2) :
    magicMount fuel fs
      = (resultOf (do_magic_mount fuel [] TEMP_DIR root false s2),
         runDetach (stOf (do_magic_mount fuel [] TEMP_DIR root false s2))) ∧
    Op.umountDetach ∈ (runDetach (stOf (do_magic_mount fuel [] TEMP_DIR root false s2))).ops := by
  constructor
  · simp only [magicMount, h1, h2]
  · rw [runDetach_ops]
    simp

/-- Witness for C6 at the concrete input `fs3`: the builder result and the
mount preparation evaluate as required, and the conclusion is obtained by
applying the theorem. -/
theorem c6_witness :
    magicMount 64 fs3
      = (resultOf (do_magic_mount 64 [] TEMP_DIR
           (Node.mk "" .Directory
             [Node.mk "system" .Directory
               [Node.mk "a" .RegularFile [] (some (MODULE_DIR ++ ["m1", "system", "a"])) false]
               none false]
             none false) false ⟨fs3, [Op.mountTmpfs, Op.makePrivate]⟩),
         runDetach (stOf (do_magic_mount 64 [] TEMP_DIR
           (Node.mk "" .Directory
             [Node.mk "system" .Directory
               [Node.mk "a" .RegularFile [] (some (MODULE_DIR ++ ["m1", "system", "a"])) false]
               none false]
             none false) false ⟨fs3, [Op.mountTmpfs, Op.makePrivate]⟩))) ∧
    Op.umountDetach ∈ (runDetach (stOf (do_magic_mount 64 [] TEMP_DIR
           (Node.mk "" .Directory
             [Node.mk "system" .Directory
               [Node.mk "a" .RegularFile [] (some (MODULE_DIR ++ ["m1", "system", "a"])) false]
               none false]
             none false) false ⟨fs3, [Op.mountTmpfs, Op.makePrivate]⟩))).ops :=
  c6_detach_always_attempted_result_passthrough 64 fs3 _ _ rfl rfl

/-- Merging a module directory whose listing is empty contributes nothing:
`has_file` is `false` and the node is unchanged (or the fuel ran out). -/
theorem collectModuleFiles_empty_dir (fuel : Nat) (fs : FSNode) (dir : SegPath)
    (self : Node) (h : readDirEx fs dir = .ok []) :
    Node.collectModuleFiles fuel fs dir self = .error .outOfFuel ∨
    Node.collectModuleFiles fuel fs dir self = .ok (false, self) := by
  cases fuel with
  | zero => left; rfl
  | succ n =>
    right
    simp only [Node.collectModuleFiles, h]
    cases n <;> rfl

/-- If every module's `system` directory is an empty directory, the
per-module loop keeps `has_file` at `false`. -/
theorem perModule_all_empty (fuel : Nat) (fs : FSNode) :
    ∀ es system hf sys',
      (∀ nm sub, (nm, sub) ∈ es →
        resolvePath fs (MODULE_DIR ++ [nm, "system"]) = some (.dir [])) →
      perModule fuel fs es false system = .ok (hf, sys') → hf = false := by
  intro es
  induction es with
  | nil =>
    intro system hf sys' _ h
    simp only [perModule] at h
    exact (Prod.mk.injEq _ _ _ _ ▸ (Except.ok.injEq _ _ ▸ h)).1.symm ▸ rfl
  | cons e rest ih =>
    intro system hf sys' hall h
    obtain ⟨nm, sub⟩ := e
    have hsys : resolvePath fs (MODULE_DIR ++ [nm, "system"]) = some (.dir []) :=
      hall nm sub (List.mem_cons_self _ _)
    have hrest : ∀ nm' sub', (nm', sub') ∈ rest →
        resolvePath fs (MODULE_DIR ++ [nm', "system"]) = some (.dir []) := by
      intro nm' sub' hm
      exact hall nm' sub' (List.mem_cons_of_mem _ hm)
    simp only [perModule] at h
    split at h
    · exact ih system hf sys' hrest h
    · split at h
      · exact ih system hf sys' hrest h
      · split at h
        · exact ih system hf sys' hrest h
        · have hread : readDirEx fs (MODULE_DIR ++ [nm, "system"]) = .ok [] := by
            simp [readDirEx, hsys]
          rcases collectModuleFiles_empty_dir fuel fs (MODULE_DIR ++ [nm, "system"])
              system hread with hcm | hcm
          · rw [hcm] at h
            exact absurd h (by simp)
          · rw [hcm] at h
            exact ih system hf sys' hrest h

/-- Claim C7.  First part: if the tree builder returns `None`, `magic_mount`
performs zero operations, leaves the filesystem untouched and succeeds.
Second part: when every entry of the module repository has an empty `system`
directory — no module contributes any content — a successful build indeed
returns `None`. -/
theorem c7_no_content_no_mounts :
    (∀ fuel fs, collect_module_files fuel fs = .ok none →
      magicMount fuel fs = (.ok (), ⟨fs, []⟩)) ∧
    (∀ fuel fs es x, readDirEx fs MODULE_DIR = .ok es →
      (∀ nm sub, (nm, sub) ∈ es →
        resolvePath fs (MODULE_DIR ++ [nm, "system"]) = some (.dir [])) →
      collect_module_files fuel fs = .ok x → x = none) := by
  constructor
  · intro fuel fs h
    simp only [magicMount, h]
  · intro fuel fs es x hdir hall h
    simp only [collect_module_files, hdir] at h
    cases hpm : perModule fuel fs es false (Node.newRoot "system") with
    | error e => rw [hpm] at h; exact absurd h (by simp)
    | ok p =>
      obtain ⟨hf, system⟩ := p
      have : hf = false := perModule_all_empty fuel fs es (Node.newRoot "system") hf system hall hpm
      rw [hpm, this] at h
      simp at h
      exact h.symm

/-- Witness for C7 at the concrete input `fs7` (one enabled module with an
empty `system` directory): zero operations and success, and the builder
returns `None`. -/
theorem c7_witness :
    magicMount 64 fs7 = (.ok (), ⟨fs7, []⟩) ∧ (none : Option Node) = none :=
  ⟨c7_no_content_no_mounts.1 64 fs7 rfl,
   c7_no_content_no_mounts.2 64 fs7 [("m1", .dir [("system", .dir [])])] none rfl
     (by
       intro nm sub hm
       simp only [List.mem_singleton, Prod.mk.injEq] at hm
       rw [hm.1]
       rfl)
     rfl⟩

/-- Claim C8.  First part: an I/O error while merging a subdirectory of a
module (here, the recursive directory read of a matched child) aborts the
enclosing entry loop with that error — errors propagate out of the whole
tree build.  Second part: a builder error is returned by `magic_mount` as
is, with the filesystem untouched and zero operations performed — no
partially built tree is ever mounted. -/
theorem c8_builder_error_aborts_before_mounts :
    (∀ fuel fs dir name sub rest hf self node e,
      name ≠ ".replace" →
      findChild self.children name = some node →
      node.file_type = .Directory →
      Node.collectModuleFiles fuel fs (dir ++ [node.name]) node = .error e →
      collectEntries (fuel + 1) fs dir ((name, sub) :: rest) hf self = .error e) ∧
    (∀ fuel fs e, collect_module_files fuel fs = .error e →
      magicMount fuel fs = (.error e, ⟨fs, []⟩)) := by
  constructor
  · intro fuel fs dir name sub rest hf self node e hname hfind htype herr
    simp only [collectEntries, if_neg hname, hfind, if_pos htype, herr]
  · intro fuel fs e h
    simp only [magicMount, h]

/-- Witness for C8 at the concrete input `fs8`: module `m0` contributed the
directory `system/x`, module `m1` has a regular file at `system/x`, so the
recursive read of `m1/system/x` fails with `NotADirectory`; the error
propagates through the entry loop and `magic_mount` returns it with zero
operations performed. -/
theorem c8_witness :
    collectEntries 61 fs8 (MODULE_DIR ++ ["m1", "system"])
      [("x", .file 2)] false
      (Node.mk "system" .Directory
        [Node.mk "x" .Directory
          [Node.mk "q" .RegularFile [] (some (MODULE_DIR ++ ["m0", "system", "x", "q"])) false]
          (some (MODULE_DIR ++ ["m0", "system", "x"])) false]
        none false)
      = .error .notDir ∧
    magicMount 64 fs8 = (.error .notDir, ⟨fs8, []⟩) :=
  ⟨c8_builder_error_aborts_before_mounts.1 60 fs8 (MODULE_DIR ++ ["m1", "system"])
      "x" (.file 2) [] false
      (Node.mk "system" .Directory
        [Node.mk "x" .Directory
          [Node.mk "q" .RegularFile [] (some (MODULE_DIR ++ ["m0", "system", "x", "q"])) false]
          (some (MODULE_DIR ++ ["m0", "system", "x"])) false]
        none false)
      (Node.mk "x" .Directory
        [Node.mk "q" .RegularFile [] (some (MODULE_DIR ++ ["m0", "system", "x", "q"])) false]
        (some (MODULE_DIR ++ ["m0", "system", "x"])) false)
      .notDir (by decide) rfl rfl rfl,
   c8_builder_error_aborts_before_mounts.2 64 fs8 .notDir rfl⟩

/-- Claim C10.  First part: for a live entry that is neither a regular file
nor a directory nor a symlink, `mount_mirror` returns success and leaves the
state — scratch tree and trace — completely unchanged.  Second part, at the
concrete input `fs10`: the live device node `/system/bin/dev0` of a shadowed
directory is absent from the final merged view while the run succeeds and
the other entries survive. -/
theorem c10_special_entries_silently_dropped :
    (∀ fuel path work name s, kindAt s.fs (path ++ [name]) = some .special →
      mount_mirror (fuel + 1) path work name s = .ok () s) ∧
    ((magicMount 64 fs10).1 = .ok () ∧
     kindAt fs10 ["system", "bin", "dev0"] = some .special ∧
     kindAt (magicMount 64 fs10).2.fs ["system", "bin", "dev0"] = none ∧
     namesAt (magicMount 64 fs10).2.fs ["system", "bin"] = some ["a", "b"]) := by
  constructor
  · intro fuel path work name s h
    simp only [mount_mirror, h]
  · exact ⟨rfl, rfl, rfl, rfl⟩

/-- Witness for C10: the general part applied to the concrete device node of
`fs10` — mirroring it succeeds and creates nothing. -/
theorem c10_witness :
    mount_mirror 11 ["system", "bin"] ["scratch"] "dev0" ⟨fs10, []⟩
      = .ok () ⟨fs10, []⟩ :=
  c10_special_entries_silently_dropped.1 10 ["system", "bin"] ["scratch"] "dev0"
    ⟨fs10, []⟩ rfl

/-- `withReplace` changes only the replace flag. -/
theorem withReplace_fields (n : Node) (r : Bool) :
    (n.withReplace r).name = n.name ∧ (n.withReplace r).file_type = n.file_type ∧
    (n.withReplace r).module_path = n.module_path ∧ (n.withReplace r).children = n.children := by
  rcases n with ⟨nm, t, cs, m, r0⟩
  exact ⟨rfl, rfl, rfl, rfl⟩

/-- `withChildren` changes only the children list. -/
theorem withChildren_fields (n : Node) (cs : List Node) :
    (n.withChildren cs).name = n.name ∧ (n.withChildren cs).file_type = n.file_type ∧
    (n.withChildren cs).module_path = n.module_path ∧ (n.withChildren cs).children = cs := by
  rcases n with ⟨nm, t, cs0, m, r0⟩
  exact ⟨rfl, rfl, rfl, rfl⟩

/-- Unfolding characterization of `Subsumes`. -/
theorem subsumes_def (nu ol : Node) :
    Subsumes nu ol ↔
      nu.name = ol.name ∧ nu.file_type = ol.file_type ∧ nu.module_path = ol.module_path ∧
      ∀ c, c ∈ ol.children → ∃ c', c' ∈ nu.children ∧ Subsumes c' c := by
  rw [Subsumes]

/-- `Subsumes` is reflexive. -/
theorem subsumes_refl (n : Node) : Subsumes n n := by
  rw [subsumes_def]
  refine ⟨rfl, rfl, rfl, ?_⟩
  intro c hc
  exact ⟨c, hc, subsumes_refl c⟩
termination_by sizeOf n
decreasing_by
  rcases n with ⟨nm, t, cs, m, r⟩
  simp only [Node.children] at hc
  have h1 := List.sizeOf_lt_of_mem hc
  simp only [Node.mk.sizeOf_spec]
  omega

/-- `Subsumes` is transitive. -/
theorem subsumes_trans (a b c : Node) (h1 : Subsumes b a) (h2 : Subsumes c b) :
    Subsumes c a := by
  rw [subsumes_def] at h1 h2 ⊢
  obtain ⟨hn1, ht1, hm1, hc1⟩ := h1
  obtain ⟨hn2, ht2, hm2, hc2⟩ := h2
  refine ⟨hn2.trans hn1, ht2.trans ht1, hm2.trans hm1, ?_⟩
  intro x hx
  obtain ⟨y, hy, hxy⟩ := hc1 x hx
  obtain ⟨z, hz, hyz⟩ := hc2 y hy
  exact ⟨z, hz, subsumes_trans x y z hxy hyz⟩
termination_by sizeOf a
decreasing_by
  rcases a with ⟨nm, t, cs, m, r⟩
  simp only [Node.children] at hx
  have h1 := List.sizeOf_lt_of_mem hx
  simp only [Node.mk.sizeOf_spec]
  omega

/-- Setting the replace flag yields a subsuming node. -/
theorem subsumes_withReplace (n : Node) (r : Bool) : Subsumes (n.withReplace r) n := by
  obtain ⟨h1, h2, h3, h4⟩ := withReplace_fields n r
  rw [subsumes_def]
  refine ⟨h1, h2, h3, ?_⟩
  intro c hc
  exact ⟨c, h4 ▸ hc, subsumes_refl c⟩

/-- A found child is a member of the list. -/
theorem findChild_mem (cs : List Node) (n : String) (c : Node)
    (h : findChild cs n = some c) : c ∈ cs ∧ c.name = n := by
  induction cs with
  | nil => exact absurd h (by simp [findChild])
  | cons c0 cs ih =>
    by_cases he : c0.name = n
    · simp only [findChild, if_pos he] at h
      cases h
      exact ⟨List.mem_cons_self _ _, he⟩
    · simp only [findChild, if_neg he] at h
      obtain ⟨hm, hn⟩ := ih h
      exact ⟨List.mem_cons_of_mem _ hm, hn⟩

/-- Replacing a found child by a node that subsumes it keeps every original
child subsumed by a member of the new list. -/
theorem replaceChild_subsumes (name : String) (node node' : Node)
    (hsub : Subsumes node' node) :
    ∀ cs, findChild cs name = some node →
      ∀ c, c ∈ cs → ∃ c'', c'' ∈ replaceChild cs name node' ∧ Subsumes c'' c := by
  intro cs
  induction cs with
  | nil => intro h; exact absurd h (by simp [findChild])
  | cons c0 cs ih =>
    intro hfind c hc
    by_cases he : c0.name = name
    · simp only [findChild, if_pos he] at hfind
      cases hfind
      simp only [replaceChild, if_pos he]
      rcases List.mem_cons.1 hc with hceq | hcm
      · exact ⟨node', List.mem_cons_self _ _, hceq ▸ hsub⟩
      · exact ⟨c, List.mem_cons_of_mem _ hcm, subsumes_refl c⟩
    · simp only [findChild, if_neg he] at hfind
      simp only [replaceChild, if_neg he]
      rcases List.mem_cons.1 hc with hceq | hcm
      · exact ⟨c0, List.mem_cons_self _ _, hceq ▸ subsumes_refl c0⟩
      · obtain ⟨c'', hm, hs⟩ := ih hfind c hcm
        exact ⟨c'', List.mem_cons_of_mem _ hm, hs⟩

/-- The replacement node itself is a member of the replaced list. -/
theorem replaceChild_mem (name : String) (node node' : Node) :
    ∀ cs, findChild cs name = some node → node' ∈ replaceChild cs name node' := by
  intro cs
  induction cs with
  | nil => intro h; exact absurd h (by simp [findChild])
  | cons c0 cs ih =>
    intro hfind
    by_cases he : c0.name = name
    · simp only [replaceChild, if_pos he]
      exact List.mem_cons_self _ _
    · simp only [findChild, if_neg he] at hfind
      simp only [replaceChild, if_neg he]
      exact List.mem_cons_of_mem _ (ih hfind)

/-- Replacing a found child by a subsuming node yields a subsuming node. -/
theorem subsumes_replace (self : Node) (name : String) (node node' : Node)
    (hfind : findChild self.children name = some node)
    (hsub : Subsumes node' node) :
    Subsumes (self.withChildren (replaceChild self.children name node')) self := by
  obtain ⟨h1, h2, h3, h4⟩ := withChildren_fields self (replaceChild self.children name node')
  rw [subsumes_def]
  refine ⟨h1, h2, h3, ?_⟩
  intro c hc
  obtain ⟨c'', hm, hs⟩ := replaceChild_subsumes name node node' hsub self.children hfind c hc
  exact ⟨c'', h4 ▸ hm, hs⟩

/-- Appending children yields a subsuming node. -/
theorem subsumes_append (self : Node) (xs : List Node) :
    Subsumes (self.withChildren (self.children ++ xs)) self := by
  obtain ⟨h1, h2, h3, h4⟩ := withChildren_fields self (self.children ++ xs)
  rw [subsumes_def]
  refine ⟨h1, h2, h3, ?_⟩
  intro c hc
  exact ⟨c, h4 ▸ List.mem_append_left _ hc, subsumes_refl c⟩

/-- A subsuming node has a child of every name the old node had a child of. -/
theorem subsumes_name_present (nu ol : Node) (h : Subsumes nu ol) (nm : String)
    (hpres : ∃ c, c ∈ ol.children ∧ c.name = nm) :
    ∃ c', c' ∈ nu.children ∧ c'.name = nm := by
  obtain ⟨c, hc, hn⟩ := hpres
  rw [subsumes_def] at h
  obtain ⟨c', hm, hs⟩ := h.2.2.2 c hc
  rw [subsumes_def] at hs
  exact ⟨c', hm, hs.1.trans hn⟩

/-- Merging a module directory into a node always yields a node that
subsumes the old one, and every processed entry (other than the `.replace`
marker and unsupported kinds) has a child of its name afterwards. -/
theorem collect_subsumes_aux : ∀ fuel : Nat,
    (∀ fs dir self out, Node.collectModuleFiles fuel fs dir self = .ok out →
      Subsumes out.2 self) ∧
    (∀ fs dir entries hf self out, collectEntries fuel fs dir entries hf self = .ok out →
      Subsumes out.2 self) ∧
    (∀ fs dir entries hf self out, collectEntries fuel fs dir entries hf self = .ok out →
      ∀ nm sub, (nm, sub) ∈ entries → nm ≠ ".replace" →
      NodeFileType.from_file_type (kindOf sub) ≠ none →
      ∃ c', c' ∈ out.2.children ∧ c'.name = nm) := by
  intro fuel
  induction fuel with
  | zero =>
    refine ⟨?_, ?_, ?_⟩
    · intro fs dir self out h
      exact absurd h (by simp [Node.collectModuleFiles])
    · intro fs dir entries hf self out h
      cases entries with
      | nil =>
        simp only [collectEntries] at h
        cases h
        exact subsumes_refl self
      | cons e rest => exact absurd h (by simp [collectEntries])
    · intro fs dir entries hf self out h nm sub hmem _ _
      cases entries with
      | nil => exact absurd hmem (by simp)
      | cons e rest => exact absurd h (by simp [collectEntries])
  | succ fuel ih =>
    obtain ⟨ihP, ihQ, ihR⟩ := ih
    have stepQ : ∀ fs dir entries hf self out,
        collectEntries (fuel + 1) fs dir entries hf self = .ok out →
        Subsumes out.2 self := by
      intro fs dir entries hf self out h
      cases entries with
      | nil =>
        simp only [collectEntries] at h
        cases h
        exact subsumes_refl self
      | cons e rest =>
        obtain ⟨name, sub⟩ := e
        by_cases hrep : name = ".replace"
        · simp only [collectEntries, if_pos hrep] at h
          exact subsumes_trans _ _ _ (subsumes_withReplace self true) (ihQ _ _ _ _ _ _ h)
        · simp only [collectEntries, if_neg hrep] at h
          cases hfind : findChild self.children name with
          | some node =>
            simp only [hfind] at h
            by_cases hdir : node.file_type = .Directory
            · rw [if_pos hdir] at h
              cases hcm : Node.collectModuleFiles fuel fs (dir ++ [node.name]) node with
              | error e =>
                simp only [hcm] at h
                exact absurd h (by simp)
              | ok p =>
                obtain ⟨hf2, node'⟩ := p
                simp only [hcm] at h
                have hsubnode : Subsumes node' node :=
                  ihP fs (dir ++ [node.name]) node (hf2, node') hcm
                exact subsumes_trans _ _ _
                  (subsumes_replace self name node node' hfind hsubnode) (ihQ _ _ _ _ _ _ h)
            · rw [if_neg hdir] at h
              exact ihQ _ _ _ _ _ _ h
          | none =>
            simp only [hfind] at h
            cases hft : NodeFileType.from_file_type (kindOf sub) with
            | none =>
              simp only [hft] at h
              exact ihQ _ _ _ _ _ _ h
            | some nft =>
              simp only [hft] at h
              by_cases hd : nft = .Directory
              · rw [if_pos hd] at h
                cases hcm : Node.collectModuleFiles fuel fs (dir ++ [name])
                    (Node.mk name nft [] (some (dir ++ [name])) false) with
                | error e =>
                  simp only [hcm] at h
                  exact absurd h (by simp)
                | ok p =>
                  obtain ⟨hf2, node'⟩ := p
                  simp only [hcm] at h
                  exact subsumes_trans _ _ _ (subsumes_append self [node'])
                    (ihQ _ _ _ _ _ _ h)
              · rw [if_neg hd] at h
                exact subsumes_trans _ _ _
                  (subsumes_append self [Node.mk name nft [] (some (dir ++ [name])) false])
                  (ihQ _ _ _ _ _ _ h)
    refine ⟨?_, stepQ, ?_⟩
    · intro fs dir self out h
      simp only [Node.collectModuleFiles] at h
      cases hrd : readDirEx fs dir with
      | error e =>
        simp only [hrd] at h
        exact absurd h (by simp)
      | ok entries =>
        simp only [hrd] at h
        exact ihQ _ _ _ _ _ _ h
    · intro fs dir entries hf self out h nm sub hmem hnm hftype
      cases entries with
      | nil => exact absurd hmem (by simp)
      | cons e rest =>
        obtain ⟨name, sub0⟩ := e
        rcases List.mem_cons.1 hmem with hhead | htail
        · -- the processed entry is the head of the listing
          have hn : nm = name := congrArg Prod.fst hhead
          have hs : sub = sub0 := congrArg Prod.snd hhead
          have hrep : ¬ name = ".replace" := fun hc => hnm (hn ▸ hc)
          have hftype0 : NodeFileType.from_file_type (kindOf sub0) ≠ none := hs ▸ hftype
          have key : ∃ c', c' ∈ out.2.children ∧ c'.name = name := by
            simp only [collectEntries, if_neg hrep] at h
            cases hfind : findChild self.children name with
            | some node =>
              simp only [hfind] at h
              obtain ⟨hnodemem, hnodename⟩ := findChild_mem _ _ _ hfind
              by_cases hdir : node.file_type = .Directory
              · rw [if_pos hdir] at h
                cases hcm : Node.collectModuleFiles fuel fs (dir ++ [node.name]) node with
                | error e =>
                  simp only [hcm] at h
                  exact absurd h (by simp)
                | ok p =>
                  obtain ⟨hf2, node'⟩ := p
                  simp only [hcm] at h
                  have hsubnode : Subsumes node' node :=
                    ihP fs (dir ++ [node.name]) node (hf2, node') hcm
                  have hname' : node'.name = name := by
                    rw [subsumes_def] at hsubnode
                    exact hsubnode.1.trans hnodename
                  have hpres : ∃ c', c' ∈
                      (self.withChildren (replaceChild self.children name node')).children ∧
                      c'.name = name := by
                    obtain ⟨_, _, _, h4⟩ :=
                      withChildren_fields self (replaceChild self.children name node')
                    exact ⟨node', h4 ▸ replaceChild_mem name node node' self.children hfind,
                      hname'⟩
                  exact subsumes_name_present _ _ (ihQ _ _ _ _ _ _ h) name hpres
              · rw [if_neg hdir] at h
                exact subsumes_name_present _ _ (ihQ _ _ _ _ _ _ h) name
                  ⟨node, hnodemem, hnodename⟩
            | none =>
              simp only [hfind] at h
              cases hft : NodeFileType.from_file_type (kindOf sub0) with
              | none => exact absurd hft hftype0
              | some nft =>
                simp only [hft] at h
                by_cases hd : nft = .Directory
                · rw [if_pos hd] at h
                  cases hcm : Node.collectModuleFiles fuel fs (dir ++ [name])
                      (Node.mk name nft [] (some (dir ++ [name])) false) with
                  | error e =>
                    simp only [hcm] at h
                    exact absurd h (by simp)
                  | ok p =>
                    obtain ⟨hf2, node'⟩ := p
                    simp only [hcm] at h
                    have hsubnode : Subsumes node'
                        (Node.mk name nft [] (some (dir ++ [name])) false) :=
                      ihP fs (dir ++ [name]) _ (hf2, node') hcm
                    have hname' : node'.name = name := by
                      rw [subsumes_def] at hsubnode
                      exact hsubnode.1
                    have hpres : ∃ c', c' ∈
                        (self.withChildren (self.children ++ [node'])).children ∧
                        c'.name = name := by
                      obtain ⟨_, _, _, h4⟩ :=
                        withChildren_fields self (self.children ++ [node'])
                      exact ⟨node', h4 ▸ List.mem_append_right _ (List.mem_singleton.2 rfl),
                        hname'⟩
                    exact subsumes_name_present _ _ (ihQ _ _ _ _ _ _ h) name hpres
                · rw [if_neg hd] at h
                  have hpres : ∃ c', c' ∈
                      (self.withChildren (self.children ++
                        [Node.mk name nft [] (some (dir ++ [name])) false])).children ∧
                      c'.name = name := by
                    obtain ⟨_, _, _, h4⟩ := withChildren_fields self
                      (self.children ++ [Node.mk name nft [] (some (dir ++ [name])) false])
                    exact ⟨Node.mk name nft [] (some (dir ++ [name])) false,
                      h4 ▸ List.mem_append_right _ (List.mem_singleton.2 rfl), rfl⟩
                  exact subsumes_name_present _ _ (ihQ _ _ _ _ _ _ h) name hpres
          obtain ⟨c', hm, he⟩ := key
          exact ⟨c', hm, he.trans hn.symm⟩
        · -- the processed entry is in the tail: follow the recursion
          by_cases hrep : name = ".replace"
          · simp only [collectEntries, if_pos hrep] at h
            exact ihR _ _ _ _ _ _ h nm sub htail hnm hftype
          · simp only [collectEntries, if_neg hrep] at h
            cases hfind : findChild self.children name with
            | some node =>
              simp only [hfind] at h
              by_cases hdir : node.file_type = .Directory
              · rw [if_pos hdir] at h
                cases hcm : Node.collectModuleFiles fuel fs (dir ++ [node.name]) node with
                | error e =>
                  simp only [hcm] at h
                  exact absurd h (by simp)
                | ok p =>
                  obtain ⟨hf2, node'⟩ := p
                  simp only [hcm] at h
                  exact ihR _ _ _ _ _ _ h nm sub htail hnm hftype
              · rw [if_neg hdir] at h
                exact ihR _ _ _ _ _ _ h nm sub htail hnm hftype
            | none =>
              simp only [hfind] at h
              cases hft : NodeFileType.from_file_type (kindOf sub0) with
              | none =>
                simp only [hft] at h
                exact ihR _ _ _ _ _ _ h nm sub htail hnm hftype
              | some nft =>
                simp only [hft] at h
                by_cases hd : nft = .Directory
                · rw [if_pos hd] at h
                  cases hcm : Node.collectModuleFiles fuel fs (dir ++ [name])
                      (Node.mk name nft [] (some (dir ++ [name])) false) with
                  | error e =>
                    simp only [hcm] at h
                    exact absurd h (by simp)
                  | ok p =>
                    obtain ⟨hf2, node'⟩ := p
                    simp only [hcm] at h
                    exact ihR _ _ _ _ _ _ h nm sub htail hnm hftype
                · rw [if_neg hd] at h
                  exact ihR _ _ _ _ _ _ h nm sub htail hnm hftype

/-- Claim C3, counterexample.  On `fs3` modules `m1` and `m2` both contribute
the regular file `system/a`; the built tree keeps the EARLIER module's
`module_path` (`m1`), not the later one's, refuting "the later module wins"
for non-directory conflicts. -/
theorem c3_counterexample_earlier_module_wins :
    collectedNodeMP (collect_module_files 64 fs3) ["system", "a"]
      = some (some (MODULE_DIR ++ ["m1", "system", "a"])) ∧
    MODULE_DIR ++ ["m1", "system", "a"] ≠ MODULE_DIR ++ ["m2", "system", "a"] :=
  ⟨rfl, by decide⟩

/-- Claim C3, as amended.  Merging a later module into the tree yields a node
that subsumes the previous one: every already-present node keeps its name,
kind and `module_path` at every depth (the EARLIER module wins on non-
directory conflicts) and keeps all its children (directories are merged
recursively, never replaced wholesale); in addition every non-`.replace`,
supported-kind entry of the merged listing is present as a child by name
afterwards. -/
theorem c3_amended_earlier_module_wins_merge_recursive :
    (∀ fuel fs dir self hf self',
      Node.collectModuleFiles fuel fs dir self = .ok (hf, self') →
      Subsumes self' self) ∧
    (∀ fuel fs dir entries hf0 self hf' self',
      collectEntries fuel fs dir entries hf0 self = .ok (hf', self') →
      ∀ nm sub, (nm, sub) ∈ entries → nm ≠ ".replace" →
      NodeFileType.from_file_type (kindOf sub) ≠ none →
      ∃ c', c' ∈ self'.children ∧ c'.name = nm) := by
  constructor
  · intro fuel fs dir self hf self' h
    exact (collect_subsumes_aux fuel).1 fs dir self (hf, self') h
  · intro fuel fs dir entries hf0 self hf' self' h nm sub hm h1 h2
    exact (collect_subsumes_aux fuel).2.2 fs dir entries hf0 self (hf', self') h nm sub hm h1 h2

/-- Witness for the amended C3 on the concrete `fs3`: merging the later
module `m2` over the tree built from `m1` subsumes it (the `system/a` node
survives untouched), and merging `m1`'s listing into the fresh `system` node
makes a child named `a` present. -/
theorem c3_amended_witness :
    Subsumes
      (Node.mk "system" .Directory
        [Node.mk "a" .RegularFile [] (some (MODULE_DIR ++ ["m1", "system", "a"])) false]
        none false)
      (Node.mk "system" .Directory
        [Node.mk "a" .RegularFile [] (some (MODULE_DIR ++ ["m1", "system", "a"])) false]
        none false) ∧
    (∃ c', c' ∈ (Node.mk "system" .Directory
        [Node.mk "a" .RegularFile [] (some (MODULE_DIR ++ ["m1", "system", "a"])) false]
        none false).children ∧ c'.name = "a") :=
  ⟨c3_amended_earlier_module_wins_merge_recursive.1 63 fs3
      (MODULE_DIR ++ ["m2", "system"])
      (Node.mk "system" .Directory
        [Node.mk "a" .RegularFile [] (some (MODULE_DIR ++ ["m1", "system", "a"])) false]
        none false)
      true
      (Node.mk "system" .Directory
        [Node.mk "a" .RegularFile [] (some (MODULE_DIR ++ ["m1", "system", "a"])) false]
        none false)
      rfl,
   c3_amended_earlier_module_wins_merge_recursive.2 63 fs3
      (MODULE_DIR ++ ["m1", "system"]) [("a", .file 1)] false (Node.newRoot "system")
      true
      (Node.mk "system" .Directory
        [Node.mk "a" .RegularFile [] (some (MODULE_DIR ++ ["m1", "system", "a"])) false]
        none false)
      rfl "a" (.file 1) (List.mem_singleton.2 rfl) (by decide) (by decide)⟩

/-- A prefix is no longer than the whole. -/
theorem prefixSeg_length (p q : SegPath) (h : PrefixSeg p q) : p.length ≤ q.length := by
  obtain ⟨r, hr⟩ := h
  rw [← hr, List.length_append]
  omega

/-- Prefixing is reflexive. -/
theorem prefixSeg_refl (p : SegPath) : PrefixSeg p p :=
  ⟨[], List.append_nil p⟩

/-- A list is a prefix of any of its extensions. -/
theorem prefixSeg_append (p r : SegPath) : PrefixSeg p (p ++ r) :=
  ⟨r, rfl⟩

/-- Prefixing is transitive. -/
theorem prefixSeg_trans (p q r : SegPath) (h1 : PrefixSeg p q) (h2 : PrefixSeg q r) :
    PrefixSeg p r := by
  obtain ⟨a, ha⟩ := h1
  obtain ⟨b, hb⟩ := h2
  exact ⟨a ++ b, by rw [← List.append_assoc, ha, hb]⟩

/-- Paths extending the same base by different head segments differ. -/
theorem prefixSeg_disjoint (p : SegPath) (n1 n2 : String) (q1 q2 : SegPath)
    (h1 : PrefixSeg (p ++ [n1]) q1) (h2 : PrefixSeg (p ++ [n2]) q2)
    (hne : n1 ≠ n2) : q1 ≠ q2 := by
  intro heq
  obtain ⟨r1, hr1⟩ := h1
  obtain ⟨r2, hr2⟩ := h2
  rw [← hr1, ← hr2] at heq
  rw [List.append_assoc, List.append_assoc] at heq
  have := List.append_cancel_left heq
  simp only [List.cons_append, List.nil_append, List.cons.injEq] at this
  exact hne this.1

/-- A strict extension of `p` by a nonempty segment is not `p` itself. -/
theorem prefixSeg_strict_ne (p : SegPath) (n : String) (q : SegPath)
    (h : PrefixSeg (p ++ [n]) q) : q ≠ p := by
  intro heq
  have := prefixSeg_length _ _ h
  rw [heq, List.length_append] at this
  simp at this

/-- `pjoin` with a nonempty segment is an append. -/
theorem pjoin_ne (p : SegPath) (n : String) (h : n ≠ "") : pjoin p n = p ++ [n] := by
  simp [pjoin, h]

/-- Nothing changed, no visits. -/
theorem visOf_nil (s : St) : VisOf s s [] :=
  ⟨[], (List.append_nil _).symm, rfl⟩

/-- Composition of trace extensions concatenates the visits. -/
theorem visOf_trans (s1 s2 s3 : St) (v1 v2 : List SegPath)
    (h1 : VisOf s1 s2 v1) (h2 : VisOf s2 s3 v2) : VisOf s1 s3 (v1 ++ v2) := by
  obtain ⟨l1, hl1, hv1⟩ := h1
  obtain ⟨l2, hl2, hv2⟩ := h2
  refine ⟨l1 ++ l2, ?_, ?_⟩
  · rw [hl2, hl1, List.append_assoc]
  · rw [visitsIn, List.filterMap_append, ← visitsIn, ← visitsIn, hv1, hv2]

/-- Emitting a visit marker records exactly that visit. -/
theorem visOf_emit_visit (s : St) (p : SegPath) : VisOf s (emit s (.visit p)) [p] :=
  ⟨[.visit p], rfl, rfl⟩

/-- Emitting a non-visit operation records no visit. -/
theorem visOf_emit_other (s : St) (o : Op) (h : ∀ p, o ≠ .visit p) :
    VisOf s (emit s o) [] := by
  refine ⟨[o], rfl, ?_⟩
  cases o <;> simp [visitsIn] <;> exact absurd rfl (h _)

/-- `setFs` does not touch the trace. -/
theorem visOf_setFs (s : St) (f : FSNode) : VisOf s (setFs s f) [] :=
  ⟨[], (List.append_nil _).symm, rfl⟩

/-- `createFileOp` records no visit. -/
theorem vis_createFileOp (p : SegPath) (s : St) :
    VisOf s (stOf (createFileOp p s)) [] := by
  unfold createFileOp
  split
  · exact visOf_nil s
  · split
    · exact visOf_setFs s _
    · exact visOf_nil s

/-- `createDirOp` records no visit. -/
theorem vis_createDirOp (p : SegPath) (s : St) :
    VisOf s (stOf (createDirOp p s)) [] := by
  unfold createDirOp
  split
  · exact visOf_nil s
  · split
    · exact visOf_setFs s _
    · exact visOf_nil s

/-- `createDirAllOp` records no visit. -/
theorem vis_createDirAllOp (p : SegPath) (s : St) :
    VisOf s (stOf (createDirAllOp p s)) [] := by
  unfold createDirAllOp
  split
  · exact visOf_setFs s _
  · exact visOf_nil s

/-- `symlinkOp` records no visit. -/
theorem vis_symlinkOp (t p : SegPath) (s : St) :
    VisOf s (stOf (symlinkOp t p s)) [] := by
  unfold symlinkOp
  split
  · exact visOf_nil s
  · split
    · exact visOf_setFs s _
    · exact visOf_nil s

/-- `readMetaNF` records no visit. -/
theorem vis_readMetaNF (p : SegPath) (s : St) :
    VisOf s (stOf (readMetaNF p s)) [] := by
  unfold readMetaNF
  split
  · exact visOf_nil s
  · exact visOf_nil s

/-- `readMetaF` records no visit. -/
theorem vis_readMetaF (p : SegPath) (s : St) :
    VisOf s (stOf (readMetaF p s)) [] := by
  unfold readMetaF
  split
  · exact visOf_nil s
  · exact visOf_nil s

/-- `readDirNamesF` records no visit. -/
theorem vis_readDirNamesF (p : SegPath) (s : St) :
    VisOf s (stOf (readDirNamesF p s)) [] := by
  unfold readDirNamesF
  split
  · exact visOf_nil s
  · exact visOf_nil s
  · exact visOf_nil s

/-- `bindMountOp` records no visit. -/
theorem vis_bindMountOp (src dst : SegPath) (s : St) :
    VisOf s (stOf (bindMountOp src dst s)) [] := by
  have h0 : VisOf s (emit s (.bindM src dst)) [] :=
    visOf_emit_other s _ (fun p h => Op.noConfusion h)
  unfold bindMountOp
  dsimp only
  split
  · exact h0
  · split
    · exact h0
    · split
      · split
        · exact visOf_trans _ _ _ [] [] h0 (visOf_setFs _ _)
        · exact h0
      · exact h0

/-- `moveMountOp` records no visit. -/
theorem vis_moveMountOp (src dst : SegPath) (s : St) :
    VisOf s (stOf (moveMountOp src dst s)) [] := by
  have h0 : VisOf s (emit s (.moveM src dst)) [] :=
    visOf_emit_other s _ (fun p h => Op.noConfusion h)
  unfold moveMountOp
  dsimp only
  split
  · exact h0
  · split
    · exact h0
    · split
      · split
        · exact visOf_trans _ _ _ [] [] h0 (visOf_setFs _ _)
        · exact h0
      · exact h0

/-- `clone_symlinkOp` records no visit. -/
theorem vis_clone_symlinkOp (src dst : SegPath) (s : St) :
    VisOf s (stOf (clone_symlinkOp src dst s)) [] := by
  unfold clone_symlinkOp
  cases h1 : symlinkOp src dst s with
  | err e s1 =>
    have := vis_symlinkOp src dst s
    rw [h1] at this
    exact this
  | ok a s1 =>
    have hv1 := vis_symlinkOp src dst s
    rw [h1] at hv1
    dsimp only
    cases h2 : readMetaNF src s1 with
    | err e s2 =>
      have hv2 := vis_readMetaNF src s1
      rw [h2] at hv2
      exact visOf_trans _ _ _ [] [] hv1 hv2
    | ok a2 s2 =>
      have hv2 := vis_readMetaNF src s1
      rw [h2] at hv2
      dsimp only
      have hv3 := vis_readMetaNF dst s2
      exact visOf_trans _ _ _ [] [] (visOf_trans _ _ _ [] [] hv1 hv2) hv3

/-- `childNeeds` records no visit (it only reads). -/
theorem vis_childNeeds (path : SegPath) (node : Node) (s : St) :
    VisOf s (stOf (childNeeds path node s)) [] := by
  unfold childNeeds
  dsimp only
  split
  · exact visOf_nil s
  · split
    · exact visOf_nil s
    · split
      · exact visOf_nil s
      · exact visOf_nil s

/-- `needLoop` records no visit. -/
theorem vis_needLoop (cs : List Node) (path : SegPath) (s : St) :
    VisOf s (stOf (needLoop cs path s)) [] := by
  induction cs generalizing s with
  | nil => exact visOf_nil s
  | cons c cs ih =>
    unfold needLoop
    cases h : childNeeds path c s with
    | err e s1 =>
      have hv := vis_childNeeds path c s
      rw [h] at hv
      exact hv
    | ok b s1 =>
      have hv := vis_childNeeds path c s
      rw [h] at hv
      cases b with
      | true => exact hv
      | false => exact visOf_trans _ _ _ [] [] hv (ih s1)

/-- `skeletonOp` records no visit. -/
theorem vis_skeletonOp (path work : SegPath) (cur : Node) (s : St) :
    VisOf s (stOf (skeletonOp path work cur s)) [] := by
  unfold skeletonOp
  cases h : createDirAllOp work s with
  | err e s1 =>
    have hv := vis_createDirAllOp work s
    rw [h] at hv
    exact hv
  | ok a s1 =>
    have hv := vis_createDirAllOp work s
    rw [h] at hv
    dsimp only
    split
    · have hv2 := vis_readMetaF path s1
      exact visOf_trans _ _ _ [] [] hv hv2
    · split
      · rename_i mp hmp
        have hv2 := vis_readMetaF mp s1
        exact visOf_trans _ _ _ [] [] hv hv2
      · exact visOf_trans _ _ _ [] [] hv (visOf_nil s1)

/-- The mirror copier records no ghost visit markers: visits belong to
virtual nodes only. -/
theorem vis_mount_mirror : ∀ fuel : Nat,
    (∀ p w n s, VisOf s (stOf (mount_mirror fuel p w n s)) []) ∧
    (∀ p w names s, VisOf s (stOf (mirrorChildren fuel p w names s)) []) := by
  intro fuel
  induction fuel with
  | zero =>
    constructor
    · intro p w n s
      exact visOf_nil s
    · intro p w names s
      cases names with
      | nil => exact visOf_nil s
      | cons n ns => exact visOf_nil s
  | succ fuel ih =>
    obtain ⟨ihA, ihB⟩ := ih
    constructor
    · intro p w n s
      unfold mount_mirror
      dsimp only
      cases hk : kindAt s.fs (p ++ [n]) with
      | none => exact visOf_nil s
      | some k =>
        cases k with
        | file =>
          cases hc : createFileOp (w ++ [n]) s with
          | err e s1 =>
            have hv := vis_createFileOp (w ++ [n]) s
            rw [hc] at hv
            exact hv
          | ok a s1 =>
            have hv := vis_createFileOp (w ++ [n]) s
            rw [hc] at hv
            dsimp only
            exact visOf_trans _ _ _ [] [] hv (vis_bindMountOp (p ++ [n]) (w ++ [n]) s1)
        | dir =>
          cases hc : createDirOp (w ++ [n]) s with
          | err e s1 =>
            have hv := vis_createDirOp (w ++ [n]) s
            rw [hc] at hv
            exact hv
          | ok a s1 =>
            have hv := vis_createDirOp (w ++ [n]) s
            rw [hc] at hv
            dsimp only
            cases hm : readMetaNF (p ++ [n]) s1 with
            | err e s2 =>
              have hv2 := vis_readMetaNF (p ++ [n]) s1
              rw [hm] at hv2
              exact visOf_trans _ _ _ [] [] hv hv2
            | ok a2 s2 =>
              have hv2 := vis_readMetaNF (p ++ [n]) s1
              rw [hm] at hv2
              dsimp only
              cases hr : readDirNamesF (p ++ [n]) s2 with
              | err e s3 =>
                have hv3 := vis_readDirNamesF (p ++ [n]) s2
                rw [hr] at hv3
                exact visOf_trans _ _ _ [] []
                  (visOf_trans _ _ _ [] [] hv hv2) hv3
              | ok names s3 =>
                have hv3 := vis_readDirNamesF (p ++ [n]) s2
                rw [hr] at hv3
                dsimp only
                exact visOf_trans _ _ _ [] []
                  (visOf_trans _ _ _ [] [] (visOf_trans _ _ _ [] [] hv hv2) hv3)
                  (ihB (p ++ [n]) (w ++ [n]) names s3)
        | symlink => exact vis_clone_symlinkOp (p ++ [n]) (w ++ [n]) s
        | special => exact visOf_nil s
    · intro p w names s
      cases names with
      | nil => exact visOf_nil s
      | cons n ns =>
        unfold mirrorChildren
        cases hm : mount_mirror fuel p w n s with
        | err e s1 =>
          have hv := ihA p w n s
          rw [hm] at hv
          exact hv
        | ok a s1 =>
          have hv := ihA p w n s
          rw [hm] at hv
          dsimp only
          exact visOf_trans _ _ _ [] [] hv (ihB p w ns s1)

/-- Properties of a successful `extractChild`: the removed node bears the
requested name and was a member; the remainder is a sublist; and when the
names were duplicate-free the requested name is gone from the remainder. -/
theorem extractChild_some (n : String) :
    ∀ cs c cs', extractChild cs n = (some c, cs') →
      c.name = n ∧ c ∈ cs ∧ List.Sublist cs' cs ∧
      ((cs.map Node.name).Nodup → n ∉ cs'.map Node.name) := by
  intro cs
  induction cs with
  | nil =>
    intro c cs' h
    simp [extractChild] at h
  | cons c0 cs ih =>
    intro c cs' h
    by_cases he : c0.name = n
    · simp only [extractChild, if_pos he] at h
      obtain ⟨hc, hcs⟩ := Prod.mk.injEq _ _ _ _ ▸ h
      cases hc
      subst hcs
      refine ⟨he, List.mem_cons_self _ _, List.Sublist.cons _ (List.Sublist.refl _), ?_⟩
      intro hnd
      rw [List.map_cons, List.nodup_cons] at hnd
      exact he ▸ hnd.1
    · simp only [extractChild, if_neg he] at h
      cases hex : extractChild cs n with
      | mk r cs2 =>
        rw [hex] at h
        obtain ⟨hc, hcs⟩ := Prod.mk.injEq _ _ _ _ ▸ h
        cases hc
        subst hcs
        obtain ⟨h1, h2, h3, h4⟩ := ih c cs2 hex
        refine ⟨h1, List.mem_cons_of_mem _ h2, List.Sublist.cons₂ _ h3, ?_⟩
        intro hnd
        rw [List.map_cons, List.nodup_cons] at hnd
        rw [List.map_cons, List.mem_cons]
        rintro (hh | hh)
        · exact he hh.symm
        · exact h4 hnd.2 hh

/-- A failed `extractChild` returns the list unchanged. -/
theorem extractChild_none (n : String) :
    ∀ cs l, extractChild cs n = (none, l) → l = cs := by
  intro cs
  induction cs with
  | nil =>
    intro l h
    simp only [extractChild] at h
    exact (Prod.mk.injEq _ _ _ _ ▸ h).2.symm
  | cons c0 cs ih =>
    intro l h
    by_cases he : c0.name = n
    · simp only [extractChild, if_pos he] at h
      exact absurd (Prod.mk.injEq _ _ _ _ ▸ h).1 (by simp)
    · simp only [extractChild, if_neg he] at h
      cases hex : extractChild cs n with
      | mk r cs2 =>
        rw [hex] at h
        obtain ⟨hc, hcs⟩ := Prod.mk.injEq _ _ _ _ ▸ h
        cases hc
        rw [← hcs, ih cs2 hex]

/-- Assemble one visit block under its parent visit: the parent path first,
then visits lying strictly below children of the parent. -/
theorem block_assemble_one (p' : SegPath) (v : List SegPath) (cs : List Node)
    (hb : ∀ q, q ∈ v → ∃ c, c ∈ cs ∧ PrefixSeg (p' ++ [c.name]) q)
    (hnv : v.Nodup) :
    (p' :: v).Nodup ∧ ∀ q, q ∈ p' :: v → PrefixSeg p' q := by
  constructor
  · rw [List.nodup_cons]
    refine ⟨?_, hnv⟩
    intro hmem
    obtain ⟨c, hc, hpre⟩ := hb p' hmem
    exact prefixSeg_strict_ne p' c.name p' hpre rfl
  · intro q hq
    rcases List.mem_cons.1 hq with hq | hq
    · exact hq ▸ prefixSeg_refl p'
    · obtain ⟨c, hc, hpre⟩ := hb q hq
      exact prefixSeg_trans _ _ _ (prefixSeg_append p' [c.name]) hpre

/-- Assemble the live-loop and drain-loop visit blocks under the parent
visit: blocks from children removed by the live loop are disjoint from
blocks of the remaining (drained) children because their names differ. -/
theorem blocks_assemble (p' : SegPath) (vl vd : List SegPath) (cs cs' : List Node)
    (hsub : List.Sublist cs' cs)
    (hl : ∀ q, q ∈ vl → ∃ c, c ∈ cs ∧ c.name ∉ cs'.map Node.name ∧
      PrefixSeg (p' ++ [c.name]) q)
    (hd : ∀ q, q ∈ vd → ∃ c, c ∈ cs' ∧ PrefixSeg (p' ++ [c.name]) q)
    (hnl : vl.Nodup) (hnd : vd.Nodup) :
    (p' :: (vl ++ vd)).Nodup ∧ ∀ q, q ∈ p' :: (vl ++ vd) → PrefixSeg p' q := by
  have hall : ∀ q, q ∈ vl ++ vd → ∃ c, c ∈ cs ∧ PrefixSeg (p' ++ [c.name]) q := by
    intro q hq
    rcases List.mem_append.1 hq with hq | hq
    · obtain ⟨c, hc, _, hpre⟩ := hl q hq
      exact ⟨c, hc, hpre⟩
    · obtain ⟨c, hc, hpre⟩ := hd q hq
      exact ⟨c, hsub.subset hc, hpre⟩
  have hnodup : (vl ++ vd).Nodup := by
    refine hnl.append hnd ?_
    intro q hq1 hq2
    obtain ⟨c1, hc1, hn1, hpre1⟩ := hl q hq1
    obtain ⟨c2, hc2, hpre2⟩ := hd q hq2
    have hne12 : c1.name ≠ c2.name := by
      intro heq
      exact hn1 (heq ▸ List.mem_map_of_mem Node.name hc2)
    exact prefixSeg_disjoint p' c1.name c2.name q q hpre1 hpre2 hne12 rfl
  exact block_assemble_one p' (vl ++ vd) cs hall hnodup

/-- Absorb a visit-free suffix. -/
theorem visOf_trans_nil_r (s1 s2 s3 : St) (v : List SegPath)
    (h1 : VisOf s1 s2 v) (h2 : VisOf s2 s3 []) : VisOf s1 s3 v := by
  have := visOf_trans s1 s2 s3 v [] h1 h2
  rwa [List.append_nil] at this

/-- Absorb a visit-free prefix. -/
theorem visOf_trans_nil_l (s1 s2 s3 : St) (v : List SegPath)
    (h1 : VisOf s1 s2 []) (h2 : VisOf s2 s3 v) : VisOf s1 s3 v :=
  visOf_trans s1 s2 s3 [] v h1 h2

/-- Package a single-visit exit of the orchestrator. -/
theorem single_visit_exit (p' : SegPath) (s sfin : St) (h : VisOf s sfin [p']) :
    ∃ v, VisOf s sfin v ∧ v.Nodup ∧ ∀ q, q ∈ v → PrefixSeg p' q :=
  ⟨[p'], h, List.nodup_singleton _, fun q hq => by
    rw [List.mem_singleton] at hq
    exact hq ▸ prefixSeg_refl _⟩

/-- The visit discipline of the orchestrator: processing a well-formed node
appends a duplicate-free list of visit markers, all lying at or below the
node's own path; the live loop moreover returns exactly the unprocessed
children (a sublist of the input), and every visit it makes belongs to a
child that is no longer among them. -/
theorem vis_do_magic_mount : ∀ fuel : Nat,
    (∀ path work cur htf s, WFN cur →
      ∃ v, VisOf s (stOf (do_magic_mount fuel path work cur htf s)) v ∧
        v.Nodup ∧ ∀ q, q ∈ v → PrefixSeg (pjoin path cur.name) q) ∧
    (∀ names cs path work htf s,
      (cs.map Node.name).Nodup → (∀ c, c ∈ cs → c.name ≠ "" ∧ WFN c) →
      ∃ v cs',
        VisOf s (stOf (liveLoop fuel names cs path work htf s)) v ∧
        (∀ a s', liveLoop fuel names cs path work htf s = .ok a s' → a = cs') ∧
        List.Sublist cs' cs ∧ v.Nodup ∧
        (∀ q, q ∈ v → ∃ c, c ∈ cs ∧ c.name ∉ cs'.map Node.name ∧
          PrefixSeg (path ++ [c.name]) q)) ∧
    (∀ cs path work htf s,
      (cs.map Node.name).Nodup → (∀ c, c ∈ cs → c.name ≠ "" ∧ WFN c) →
      ∃ v,
        VisOf s (stOf (drainLoop fuel cs path work htf s)) v ∧
        v.Nodup ∧
        (∀ q, q ∈ v → ∃ c, c ∈ cs ∧ PrefixSeg (path ++ [c.name]) q)) := by
  intro fuel
  induction fuel with
  | zero =>
    refine ⟨?_, ?_, ?_⟩
    · intro path work cur htf s _
      exact ⟨[], visOf_nil s, List.nodup_nil, fun q hq => absurd hq (List.not_mem_nil q)⟩
    · intro names cs path work htf s _ _
      cases names with
      | nil =>
        refine ⟨[], cs, visOf_nil s, ?_, List.Sublist.refl cs, List.nodup_nil,
          fun q hq => absurd hq (List.not_mem_nil q)⟩
        intro a s' h
        simp only [liveLoop, Res.ok.injEq] at h
        exact h.1.symm
      | cons n ns =>
        refine ⟨[], cs, visOf_nil s, ?_, List.Sublist.refl cs, List.nodup_nil,
          fun q hq => absurd hq (List.not_mem_nil q)⟩
        intro a s' h
        simp only [liveLoop] at h
        exact absurd h (by simp)
    · intro cs path work htf s _ _
      cases cs with
      | nil =>
        exact ⟨[], visOf_nil s, List.nodup_nil, fun q hq => absurd hq (List.not_mem_nil q)⟩
      | cons c cs =>
        exact ⟨[], visOf_nil s, List.nodup_nil, fun q hq => absurd hq (List.not_mem_nil q)⟩
  | succ fuel ih =>
    obtain ⟨ihC, ihD, ihE⟩ := ih
    have stepD : ∀ names cs path work htf s,
        (cs.map Node.name).Nodup → (∀ c, c ∈ cs → c.name ≠ "" ∧ WFN c) →
        ∃ v cs',
          VisOf s (stOf (liveLoop (fuel + 1) names cs path work htf s)) v ∧
          (∀ a s', liveLoop (fuel + 1) names cs path work htf s = .ok a s' → a = cs') ∧
          List.Sublist cs' cs ∧ v.Nodup ∧
          (∀ q, q ∈ v → ∃ c, c ∈ cs ∧ c.name ∉ cs'.map Node.name ∧
            PrefixSeg (path ++ [c.name]) q) := by
      intro names cs path work htf s hnodup hwfcs
      cases names with
      | nil =>
        refine ⟨[], cs, visOf_nil s, ?_, List.Sublist.refl cs, List.nodup_nil,
          fun q hq => absurd hq (List.not_mem_nil q)⟩
        intro a s' h
        simp only [liveLoop, Res.ok.injEq] at h
        exact h.1.symm
      | cons n ns =>
        unfold liveLoop
        cases hex : extractChild cs n with
        | mk r cs2 =>
          cases r with
          | some c =>
            obtain ⟨hcname, hcmem, hcs2sub, hcs2name⟩ := extractChild_some n cs c cs2 hex
            obtain ⟨hcne, hcwf⟩ := hwfcs c hcmem
            dsimp only
            obtain ⟨v_c, hvisc, hnodc, hprec⟩ := ihC path work c htf s hcwf
            cases hdm : do_magic_mount fuel path work c htf s with
            | err e s1 =>
              rw [hdm] at hvisc
              dsimp only
              refine ⟨v_c, cs2, hvisc, ?_, hcs2sub, hnodc, ?_⟩
              · intro a s' h
                exact absurd h (by simp)
              · intro q hq
                refine ⟨c, hcmem, ?_, ?_⟩
                · intro hmem
                  exact (hcs2name hnodup) (hcname ▸ hmem)
                · have := hprec q hq
                  rwa [pjoin_ne _ _ hcne] at this
            | ok a s1 =>
              rw [hdm] at hvisc
              dsimp only
              have hnodup2 : (cs2.map Node.name).Nodup :=
                hnodup.sublist (hcs2sub.map Node.name)
              have hwf2 : ∀ x, x ∈ cs2 → x.name ≠ "" ∧ WFN x :=
                fun x hx => hwfcs x (hcs2sub.subset hx)
              obtain ⟨v_r, cs', hvisr, hval, hsub', hnodr, hpropr⟩ :=
                ihD ns cs2 path work htf s1 hnodup2 hwf2
              refine ⟨v_c ++ v_r, cs', visOf_trans _ _ _ _ _ hvisc hvisr, ?_,
                hsub'.trans hcs2sub, ?_, ?_⟩
              · intro a' s' h
                exact hval a' s' h
              · refine hnodc.append hnodr ?_
                intro q hq1 hq2
                obtain ⟨c3, hc3mem, _, hpre3⟩ := hpropr q hq2
                have hpre1 := hprec q hq1
                rw [pjoin_ne _ _ hcne] at hpre1
                have hne3 : c.name ≠ c3.name := by
                  intro heq
                  exact (hcs2name hnodup)
                    (hcname ▸ heq ▸ List.mem_map_of_mem Node.name hc3mem)
                exact prefixSeg_disjoint path c.name c3.name q q hpre1 hpre3 hne3 rfl
              · intro q hq
                rcases List.mem_append.1 hq with hq | hq
                · refine ⟨c, hcmem, ?_, ?_⟩
                  · intro hmem
                    have : c.name ∈ cs2.map Node.name :=
                      (hsub'.map Node.name).subset hmem
                    exact (hcs2name hnodup) (hcname ▸ this)
                  · have := hprec q hq
                    rwa [pjoin_ne _ _ hcne] at this
                · obtain ⟨c3, hc3mem, hc3name, hpre3⟩ := hpropr q hq
                  exact ⟨c3, hcs2sub.subset hc3mem, hc3name, hpre3⟩
          | none =>
            have hcseq := extractChild_none n cs cs2 hex
            subst hcseq
            cases htf with
            | false =>
              rw [if_neg (by simp)]
              obtain ⟨v_r, cs', hvisr, hval, hsub', hnodr, hpropr⟩ :=
                ihD ns cs2 path work false s hnodup hwfcs
              exact ⟨v_r, cs', hvisr, fun a s' h => hval a s' h, hsub', hnodr, hpropr⟩
            | true =>
              rw [if_pos rfl]
              cases hmm : mount_mirror fuel path work n s with
              | err e s1 =>
                have hv := (vis_mount_mirror fuel).1 path work n s
                rw [hmm] at hv
                refine ⟨[], cs2, hv, ?_, List.Sublist.refl cs2, List.nodup_nil,
                  fun q hq => absurd hq (List.not_mem_nil q)⟩
                intro a s' h
                exact absurd h (by simp)
              | ok a s1 =>
                have hv := (vis_mount_mirror fuel).1 path work n s
                rw [hmm] at hv
                dsimp only
                obtain ⟨v_r, cs', hvisr, hval, hsub', hnodr, hpropr⟩ :=
                  ihD ns cs2 path work true s1 hnodup hwfcs
                exact ⟨v_r, cs', visOf_trans_nil_l _ _ _ _ hv hvisr,
                  fun a s' h => hval a s' h, hsub', hnodr, hpropr⟩
    have stepE : ∀ cs path work htf s,
        (cs.map Node.name).Nodup → (∀ c, c ∈ cs → c.name ≠ "" ∧ WFN c) →
        ∃ v,
          VisOf s (stOf (drainLoop (fuel + 1) cs path work htf s)) v ∧
          v.Nodup ∧
          (∀ q, q ∈ v → ∃ c, c ∈ cs ∧ PrefixSeg (path ++ [c.name]) q) := by
      intro cs path work htf s hnodup hwfcs
      cases cs with
      | nil =>
        exact ⟨[], visOf_nil s, List.nodup_nil, fun q hq => absurd hq (List.not_mem_nil q)⟩
      | cons c cs =>
        unfold drainLoop
        obtain ⟨hcne, hcwf⟩ := hwfcs c (List.mem_cons_self _ _)
        obtain ⟨v_c, hvisc, hnodc, hprec⟩ := ihC path work c htf s hcwf
        rw [List.map_cons, List.nodup_cons] at hnodup
        cases hdm : do_magic_mount fuel path work c htf s with
        | err e s1 =>
          rw [hdm] at hvisc
          dsimp only
          refine ⟨v_c, hvisc, hnodc, ?_⟩
          intro q hq
          have := hprec q hq
          rw [pjoin_ne _ _ hcne] at this
          exact ⟨c, List.mem_cons_self _ _, this⟩
        | ok a s1 =>
          rw [hdm] at hvisc
          dsimp only
          obtain ⟨v_r, hvisr, hnodr, hpropr⟩ := ihE cs path work htf s1 hnodup.2
            (fun x hx => hwfcs x (List.mem_cons_of_mem _ hx))
          refine ⟨v_c ++ v_r, visOf_trans _ _ _ _ _ hvisc hvisr, ?_, ?_⟩
          · refine hnodc.append hnodr ?_
            intro q hq1 hq2
            obtain ⟨c3, hc3mem, hpre3⟩ := hpropr q hq2
            have hpre1 := hprec q hq1
            rw [pjoin_ne _ _ hcne] at hpre1
            have hne3 : c.name ≠ c3.name := by
              intro heq
              exact hnodup.1 (heq ▸ List.mem_map_of_mem Node.name hc3mem)
            exact prefixSeg_disjoint path c.name c3.name q q hpre1 hpre3 hne3 rfl
          · intro q hq
            rcases List.mem_append.1 hq with hq | hq
            · have := hprec q hq
              rw [pjoin_ne _ _ hcne] at this
              exact ⟨c, List.mem_cons_self _ _, this⟩
            · obtain ⟨c3, hc3mem, hpre3⟩ := hpropr q hq
              exact ⟨c3, List.mem_cons_of_mem _ hc3mem, hpre3⟩
    have stepC : ∀ path work cur htf s, WFN cur →
        ∃ v, VisOf s (stOf (do_magic_mount (fuel + 1) path work cur htf s)) v ∧
          v.Nodup ∧ ∀ q, q ∈ v → PrefixSeg (pjoin path cur.name) q := by
      intro path work cur htf s hwf
      obtain ⟨_, hnn, hne', hcwf⟩ := hwf
      unfold do_magic_mount
      dsimp only
      have h0 : VisOf s (emit s (Op.visit (pjoin path cur.name))) [pjoin path cur.name] :=
        visOf_emit_visit s _
      cases hft : cur.file_type with
      | RegularFile =>
        dsimp only
        cases hc1 : (if htf = true then createFileOp (pjoin work cur.name)
            (emit s (Op.visit (pjoin path cur.name))) else
            .ok () (emit s (Op.visit (pjoin path cur.name))) : Res Unit) with
        | err e s2 =>
          have hx : VisOf (emit s (Op.visit (pjoin path cur.name))) s2 [] := by
            cases htf with
            | true =>
              have hv := vis_createFileOp (pjoin work cur.name)
                (emit s (Op.visit (pjoin path cur.name)))
              rw [if_pos rfl] at hc1
              rw [hc1] at hv
              exact hv
            | false =>
              rw [if_neg (by simp)] at hc1
              exact absurd hc1 (by simp)
          exact single_visit_exit _ s _ (visOf_trans_nil_r _ _ _ _ h0 hx)
        | ok a s2 =>
          have hx : VisOf (emit s (Op.visit (pjoin path cur.name))) s2 [] := by
            cases htf with
            | true =>
              have hv := vis_createFileOp (pjoin work cur.name)
                (emit s (Op.visit (pjoin path cur.name)))
              rw [if_pos rfl] at hc1
              rw [hc1] at hv
              exact hv
            | false =>
              rw [if_neg (by simp)] at hc1
              obtain ⟨h1, h2⟩ := Res.ok.injEq _ _ _ _ ▸ hc1
              rw [← h2]
              exact visOf_nil _
          dsimp only
          cases hmp : cur.module_path with
          | some mp =>
            have hbv := vis_bindMountOp mp (pjoin work cur.name) s2
            exact single_visit_exit _ s _
              (visOf_trans_nil_r _ _ _ _ (visOf_trans_nil_r _ _ _ _ h0 hx) hbv)
          | none =>
            exact single_visit_exit _ s _ (visOf_trans_nil_r _ _ _ _ h0 hx)
      | Symlink =>
        dsimp only
        cases hmp : cur.module_path with
        | some mp =>
          have hbv := vis_clone_symlinkOp mp (pjoin work cur.name)
            (emit s (Op.visit (pjoin path cur.name)))
          exact single_visit_exit _ s _ (visOf_trans_nil_r _ _ _ _ h0 hbv)
        | none =>
          exact single_visit_exit _ s _ (visOf_trans_nil_r _ _ _ _ h0 (visOf_nil _))
      | Directory =>
        dsimp only
        cases hc1 : (if htf = true then
            .ok false (emit s (Op.visit (pjoin path cur.name))) else
            needLoop cur.children (pjoin path cur.name)
              (emit s (Op.visit (pjoin path cur.name))) : Res Bool) with
        | err e s2 =>
          have hx : VisOf (emit s (Op.visit (pjoin path cur.name))) s2 [] := by
            cases htf with
            | true =>
              rw [if_pos rfl] at hc1
              exact absurd hc1 (by simp)
            | false =>
              rw [if_neg (by simp)] at hc1
              have hv := vis_needLoop cur.children (pjoin path cur.name)
                (emit s (Op.visit (pjoin path cur.name)))
              rw [hc1] at hv
              exact hv
          exact single_visit_exit _ s _ (visOf_trans_nil_r _ _ _ _ h0 hx)
        | ok ct s2 =>
          have hx1 : VisOf (emit s (Op.visit (pjoin path cur.name))) s2 [] := by
            cases htf with
            | true =>
              rw [if_pos rfl] at hc1
              obtain ⟨h1, h2⟩ := Res.ok.injEq _ _ _ _ ▸ hc1
              rw [← h2]
              exact visOf_nil _
            | false =>
              rw [if_neg (by simp)] at hc1
              have hv := vis_needLoop cur.children (pjoin path cur.name)
                (emit s (Op.visit (pjoin path cur.name)))
              rw [hc1] at hv
              exact hv
          have hacc1 : VisOf s s2 [pjoin path cur.name] :=
            visOf_trans_nil_r _ _ _ _ h0 hx1
          dsimp only
          cases hc2 : (if (htf || ct) = true then
              skeletonOp (pjoin path cur.name) (pjoin work cur.name) cur s2 else
              .ok () s2 : Res Unit) with
          | err e s3 =>
            have hx : VisOf s2 s3 [] := by
              cases hb : htf || ct with
              | true =>
                rw [hb, if_pos rfl] at hc2
                have hv := vis_skeletonOp (pjoin path cur.name) (pjoin work cur.name) cur s2
                rw [hc2] at hv
                exact hv
              | false =>
                rw [hb, if_neg (by simp)] at hc2
                exact absurd hc2 (by simp)
            exact single_visit_exit _ s _ (visOf_trans_nil_r _ _ _ _ hacc1 hx)
          | ok a3 s3 =>
            have hx2 : VisOf s2 s3 [] := by
              cases hb : htf || ct with
              | true =>
                rw [hb, if_pos rfl] at hc2
                have hv := vis_skeletonOp (pjoin path cur.name) (pjoin work cur.name) cur s2
                rw [hc2] at hv
                exact hv
              | false =>
                rw [hb, if_neg (by simp)] at hc2
                obtain ⟨h1, h2⟩ := Res.ok.injEq _ _ _ _ ▸ hc2
                rw [← h2]
                exact visOf_nil _
            have hacc2 : VisOf s s3 [pjoin path cur.name] :=
              visOf_trans_nil_r _ _ _ _ hacc1 hx2
            dsimp only
            cases hc3 : (if ct = true then
                bindMountOp (pjoin work cur.name) (pjoin work cur.name) s3 else
                .ok () s3 : Res Unit) with
            | err e s4 =>
              have hx : VisOf s3 s4 [] := by
                cases ct with
                | true =>
                  rw [if_pos rfl] at hc3
                  have hv := vis_bindMountOp (pjoin work cur.name) (pjoin work cur.name) s3
                  rw [hc3] at hv
                  exact hv
                | false =>
                  rw [if_neg (by simp)] at hc3
                  exact absurd hc3 (by simp)
              exact single_visit_exit _ s _ (visOf_trans_nil_r _ _ _ _ hacc2 hx)
            | ok a4 s4 =>
              have hx3 : VisOf s3 s4 [] := by
                cases ct with
                | true =>
                  rw [if_pos rfl] at hc3
                  have hv := vis_bindMountOp (pjoin work cur.name) (pjoin work cur.name) s3
                  rw [hc3] at hv
                  exact hv
                | false =>
                  rw [if_neg (by simp)] at hc3
                  obtain ⟨h1, h2⟩ := Res.ok.injEq _ _ _ _ ▸ hc3
                  rw [← h2]
                  exact visOf_nil _
              have hacc3 : VisOf s s4 [pjoin path cur.name] :=
                visOf_trans_nil_r _ _ _ _ hacc2 hx3
              dsimp only
              have hwfall : ∀ c, c ∈ cur.children → c.name ≠ "" ∧ WFN c :=
                fun c h => ⟨hne' c h, hcwf c h⟩
              cases hcond : existsF s4 (pjoin path cur.name) && !cur.replace with
              | false =>
                rw [if_neg (by simp)]
                dsimp only
                -- no live iteration: all children go to the drain loop
                cases hbail : cur.replace && cur.module_path.isNone with
                | true =>
                  rw [if_pos rfl]
                  exact single_visit_exit _ s _ hacc3
                | false =>
                  rw [if_neg (by simp)]
                  obtain ⟨v_d, hvisd, hnodd, hpropd⟩ :=
                    ihE cur.children (pjoin path cur.name) (pjoin work cur.name)
                      (htf || ct) s4 hnn hwfall
                  cases hdrain : drainLoop fuel cur.children (pjoin path cur.name)
                      (pjoin work cur.name) (htf || ct) s4 with
                  | err e s5 =>
                    rw [hdrain] at hvisd
                    dsimp only
                    obtain ⟨hnodv, hprev⟩ := block_assemble_one (pjoin path cur.name)
                      v_d cur.children hpropd hnodd
                    exact ⟨pjoin path cur.name :: v_d,
                      visOf_trans _ _ _ _ _ hacc3 hvisd, hnodv, hprev⟩
                  | ok a5 s5 =>
                    rw [hdrain] at hvisd
                    dsimp only
                    obtain ⟨hnodv, hprev⟩ := block_assemble_one (pjoin path cur.name)
                      v_d cur.children hpropd hnodd
                    cases hmv : (if ct = true then
                        moveMountOp (pjoin work cur.name) (pjoin path cur.name) s5 else
                        .ok () s5 : Res Unit) with
                    | err e s6 =>
                      have hx5 : VisOf s5 s6 [] := by
                        cases ct with
                        | true =>
                          rw [if_pos rfl] at hmv
                          have hv := vis_moveMountOp (pjoin work cur.name)
                            (pjoin path cur.name) s5
                          rw [hmv] at hv
                          exact hv
                        | false =>
                          rw [if_neg (by simp)] at hmv
                          exact absurd hmv (by simp)
                      exact ⟨pjoin path cur.name :: v_d,
                        visOf_trans_nil_r _ _ _ _ (visOf_trans _ _ _ _ _ hacc3 hvisd) hx5,
                        hnodv, hprev⟩
                    | ok a6 s6 =>
                      have hx5 : VisOf s5 s6 [] := by
                        cases ct with
                        | true =>
                          rw [if_pos rfl] at hmv
                          have hv := vis_moveMountOp (pjoin work cur.name)
                            (pjoin path cur.name) s5
                          rw [hmv] at hv
                          exact hv
                        | false =>
                          rw [if_neg (by simp)] at hmv
                          obtain ⟨h1, h2⟩ := Res.ok.injEq _ _ _ _ ▸ hmv
                          rw [← h2]
                          exact visOf_nil _
                      exact ⟨pjoin path cur.name :: v_d,
                        visOf_trans_nil_r _ _ _ _ (visOf_trans _ _ _ _ _ hacc3 hvisd) hx5,
                        hnodv, hprev⟩
              | true =>
                rw [if_pos rfl]
                cases hrd : readDirNamesF (pjoin path cur.name) s4 with
                | err e s5 =>
                  have hv := vis_readDirNamesF (pjoin path cur.name) s4
                  rw [hrd] at hv
                  dsimp only
                  exact single_visit_exit _ s _ (visOf_trans_nil_r _ _ _ _ hacc3 hv)
                | ok names s5 =>
                  have hvr := vis_readDirNamesF (pjoin path cur.name) s4
                  rw [hrd] at hvr
                  have hacc4 : VisOf s s5 [pjoin path cur.name] :=
                    visOf_trans_nil_r _ _ _ _ hacc3 hvr
                  dsimp only
                  obtain ⟨v_l, cs', hvisl, hval, hsubl, hnodl, hpropl⟩ :=
                    ihD names cur.children (pjoin path cur.name) (pjoin work cur.name)
                      (htf || ct) s5 hnn hwfall
                  cases hlive : liveLoop fuel names cur.children (pjoin path cur.name)
                      (pjoin work cur.name) (htf || ct) s5 with
                  | err e s6 =>
                    rw [hlive] at hvisl
                    dsimp only
                    have hb : ∀ q, q ∈ v_l → ∃ c, c ∈ cur.children ∧
                        PrefixSeg (pjoin path cur.name ++ [c.name]) q := by
                      intro q hq
                      obtain ⟨c, hc, _, hpre⟩ := hpropl q hq
                      exact ⟨c, hc, hpre⟩
                    obtain ⟨hnodv, hprev⟩ := block_assemble_one (pjoin path cur.name)
                      v_l cur.children hb hnodl
                    exact ⟨pjoin path cur.name :: v_l,
                      visOf_trans _ _ _ _ _ hacc4 hvisl, hnodv, hprev⟩
                  | ok remaining s6 =>
                    rw [hlive] at hvisl
                    have hrem : remaining = cs' := hval remaining s6 hlive
                    subst hrem
                    dsimp only
                    cases hbail : cur.replace && cur.module_path.isNone with
                    | true =>
                      rw [if_pos rfl]
                      have hb : ∀ q, q ∈ v_l → ∃ c, c ∈ cur.children ∧
                          PrefixSeg (pjoin path cur.name ++ [c.name]) q := by
                        intro q hq
                        obtain ⟨c, hc, _, hpre⟩ := hpropl q hq
                        exact ⟨c, hc, hpre⟩
                      obtain ⟨hnodv, hprev⟩ := block_assemble_one (pjoin path cur.name)
                        v_l cur.children hb hnodl
                      exact ⟨pjoin path cur.name :: v_l,
                        visOf_trans _ _ _ _ _ hacc4 hvisl, hnodv, hprev⟩
                    | false =>
                      rw [if_neg (by simp)]
                      have hnodup' : (remaining.map Node.name).Nodup :=
                        hnn.sublist (hsubl.map Node.name)
                      have hwf' : ∀ c, c ∈ remaining → c.name ≠ "" ∧ WFN c :=
                        fun c h => hwfall c (hsubl.subset h)
                      obtain ⟨v_d, hvisd, hnodd, hpropd⟩ :=
                        ihE remaining (pjoin path cur.name) (pjoin work cur.name)
                          (htf || ct) s6 hnodup' hwf'
                      obtain ⟨hnodv, hprev⟩ := blocks_assemble (pjoin path cur.name)
                        v_l v_d cur.children remaining hsubl hpropl hpropd hnodl hnodd
                      cases hdrain : drainLoop fuel remaining (pjoin path cur.name)
                          (pjoin work cur.name) (htf || ct) s6 with
                      | err e s7 =>
                        rw [hdrain] at hvisd
                        dsimp only
                        exact ⟨pjoin path cur.name :: (v_l ++ v_d),
                          visOf_trans _ _ _ _ _ (visOf_trans _ _ _ _ _ hacc4 hvisl) hvisd,
                          hnodv, hprev⟩
                      | ok a7 s7 =>
                        rw [hdrain] at hvisd
                        dsimp only
                        cases hmv : (if ct = true then
                            moveMountOp (pjoin work cur.name) (pjoin path cur.name) s7 else
                            .ok () s7 : Res Unit) with
                        | err e s8 =>
                          have hx5 : VisOf s7 s8 [] := by
                            cases ct with
                            | true =>
                              rw [if_pos rfl] at hmv
                              have hv := vis_moveMountOp (pjoin work cur.name)
                                (pjoin path cur.name) s7
                              rw [hmv] at hv
                              exact hv
                            | false =>
                              rw [if_neg (by simp)] at hmv
                              exact absurd hmv (by simp)
                          exact ⟨pjoin path cur.name :: (v_l ++ v_d),
                            visOf_trans_nil_r _ _ _ _
                              (visOf_trans _ _ _ _ _
                                (visOf_trans _ _ _ _ _ hacc4 hvisl) hvisd) hx5,
                            hnodv, hprev⟩
                        | ok a8 s8 =>
                          have hx5 : VisOf s7 s8 [] := by
                            cases ct with
                            | true =>
                              rw [if_pos rfl] at hmv
                              have hv := vis_moveMountOp (pjoin work cur.name)
                                (pjoin path cur.name) s7
                              rw [hmv] at hv
                              exact hv
                            | false =>
                              rw [if_neg (by simp)] at hmv
                              obtain ⟨h1, h2⟩ := Res.ok.injEq _ _ _ _ ▸ hmv
                              rw [← h2]
                              exact visOf_nil _
                          exact ⟨pjoin path cur.name :: (v_l ++ v_d),
                            visOf_trans_nil_r _ _ _ _
                              (visOf_trans _ _ _ _ _
                                (visOf_trans _ _ _ _ _ hacc4 hvisl) hvisd) hx5,
                            hnodv, hprev⟩
    exact ⟨stepC, stepD, stepE⟩

/-- Claim C9.  During orchestration every virtual child is removed from its
parent's children map before being recursively processed (matched children
by the live loop, the rest by the drain), so for any well-formed virtual
node the ghost visit trace `do_magic_mount` appends is duplicate-free —
each virtual node, and hence each relative path, is processed at most once
per invocation — and confined to the node's own subtree. -/
theorem c9_each_node_processed_at_most_once (fuel : Nat) (path work : SegPath)
    (node : Node) (htf : Bool) (s : St) (hwf : WFN node) :
    ∃ v, VisOf s (stOf (do_magic_mount fuel path work node htf s)) v ∧
      v.Nodup ∧ ∀ q, q ∈ v → PrefixSeg (pjoin path node.name) q :=
  (vis_do_magic_mount fuel).1 path work node htf s hwf

/-- Witness for C9 at the concrete tree of `fs5`, rooted like the top-level
driver roots the orchestrator. -/
theorem c9_witness :
    ∃ v,
      VisOf ⟨fs5, []⟩
        (stOf (do_magic_mount 20 [] TEMP_DIR
          (Node.mk "" .Directory
            [Node.mk "system" .Directory
              [Node.mk "bin" .Directory
                [Node.mk "b" .RegularFile []
                  (some (MODULE_DIR ++ ["m1", "system", "bin", "b"])) false]
                (some (MODULE_DIR ++ ["m1", "system", "bin"])) false]
              none false]
            none false)
          false ⟨fs5, []⟩)) v ∧
      v.Nodup ∧
      ∀ q, q ∈ v → PrefixSeg (pjoin []
        (Node.mk "" NodeFileType.Directory
            [Node.mk "system" .Directory
              [Node.mk "bin" .Directory
                [Node.mk "b" .RegularFile []
                  (some (MODULE_DIR ++ ["m1", "system", "bin", "b"])) false]
                (some (MODULE_DIR ++ ["m1", "system", "bin"])) false]
              none false]
            none false).name) q := by
  apply c9_each_node_processed_at_most_once
  refine WFN.intro _ (by decide) ?_ ?_
  · intro c hc
    simp only [Node.children, List.mem_singleton] at hc
    subst hc
    decide
  · intro c hc
    simp only [Node.children, List.mem_singleton] at hc
    subst hc
    refine WFN.intro _ (by decide) ?_ ?_
    · intro c hc
      simp only [Node.children, List.mem_singleton] at hc
      subst hc
      decide
    · intro c hc
      simp only [Node.children, List.mem_singleton] at hc
      subst hc
      refine WFN.intro _ (by decide) ?_ ?_
      · intro c hc
        simp only [Node.children, List.mem_singleton] at hc
        subst hc
        decide
      · intro c hc
        simp only [Node.children, List.mem_singleton] at hc
        subst hc
        exact WFN.intro _ (by decide)
          (fun c hc => absurd hc (by simp [Node.children]))
          (fun c hc => absurd hc (by simp [Node.children]))
